import Mathlib

/-!
Verification of the bouquet-allocation program (`solution.py`).

The program is shallowly embedded: Python `Counter`/`dict` objects become
insertion-ordered association lists (`List (String × _)`), the floating-point
cost becomes `ℚ`, and the `IndexError` that `most_common(1)[0]` raises on an
empty counter becomes `Except.error ()`.  The unbounded `while` loop of
`compute_bouquets` is modelled with explicit fuel; `none` means the fuel ran
out with the loop still running.
-/

namespace Bloomon

abbrev Species := String

/-- A Python `Counter` / insertion-ordered `dict` with values in `α`:
an association list where the first occurrence of a key is authoritative. -/
abbrev AList (α : Type) := List (Species × α)

/-- `Counter.__getitem__`: value of the first entry with key `s`, default `d`. -/
def lookupD {α : Type} (d : α) : AList α → Species → α
  | [], _ => d
  | p :: rest, s => if p.1 = s then p.2 else lookupD d rest s

/-- `dict.__setitem__`: replace the value at the first entry with key `s`,
or append a new entry if the key is absent. -/
def setVal {α : Type} : AList α → Species → α → AList α
  | [], s, v => [(s, v)]
  | p :: rest, s, v => if p.1 = s then (s, v) :: rest else p :: setVal rest s v

/-- `del d[s]`: remove the first entry with key `s`. -/
def delKey {α : Type} : AList α → Species → AList α
  | [], _ => []
  | p :: rest, s => if p.1 = s then rest else p :: delKey rest s

/-- The keys of the mapping, in insertion order. -/
def keys {α : Type} (l : AList α) : List Species := l.map Prod.fst

/-- `s in d`: key membership. -/
def hasKey {α : Type} (l : AList α) (s : Species) : Prop := s ∈ keys l

instance {α : Type} (l : AList α) (s : Species) : Decidable (hasKey l s) := by
  unfold hasKey; infer_instance

/-- The flower inventory (large or small): a `Counter` mapping species to counts. -/
abbrev Flowers := AList Int

/-- `flowers[s]` with a `Counter`: 0 for a missing key. -/
def amt (f : Flowers) (s : Species) : Int := lookupD 0 f s

/-- `sum(flowers.values())`. -/
def valSum (f : Flowers) : Int := (f.map Prod.snd).sum

/-- `Counter.most_common(1)`: the first-inserted key among those attaining the
maximum count; `none` when the counter is empty (where Python raises on
indexing the empty result list). -/
def mostCommon? (f : Flowers) : Option Species :=
  match (f.map Prod.snd).max? with
  | none => none
  | some m => (f.find? (fun p => p.2 = m)).map Prod.fst

/-- A parsed bouquet design: the tuple
`(design, num_flowers_bouquet, design_name)` built by `parse_bouquet_design`.
`required` is the insertion-ordered dict of per-species counts. -/
structure Design where
  required : AList Nat
  totalSlots : Nat
  name : String
  deriving DecidableEq, Repr

/-- The sentinel `large_cost = 1e99` marking an infeasible bouquet. -/
def bigCost : ℚ := 10 ^ 99

/-- The mutable locals of `bouquet_from_design_with_most_common_flowers`:
the snapshot `flowers`, the tracked `total_number_of_flowers`,
`remaining_flowers_to_add`, the `bouquet` under construction and the
accumulated `cost_value`. -/
structure FillState where
  flowers : Flowers
  total : Int
  remaining : Int
  bouquet : Flowers
  cost : ℚ
  deriving DecidableEq

/-- One unit of species `s` is consumed: the scarcity charge
`1 - flowers[s] / total_number_of_flowers` is added to the cost *before*
decrementing, then snapshot count, tracked total and remaining slots go down
by one and the bouquet count goes up by one. -/
def consumeOne (s : Species) (st : FillState) : FillState :=
  { flowers := setVal st.flowers s (amt st.flowers s - 1)
    total := st.total - 1
    remaining := st.remaining - 1
    bouquet := setVal st.bouquet s (amt st.bouquet s + 1)
    cost := st.cost + (1 - (amt st.flowers s : ℚ) / (st.total : ℚ)) }

/-- `for j in range(design[0][s])`: consume `k` units of `s` one at a time. -/
def consumeN (s : Species) : Nat → FillState → FillState
  | 0, st => st
  | k + 1, st => consumeN s k (consumeOne s st)

/-- The first loop of `bouquet_from_design_with_most_common_flowers`:
for each required species, fail (`none`) if the snapshot has fewer than the
required units or the tracked total is exhausted, else set `bouquet[s] = 0`
and consume the required units. -/
def requiredLoop : List (Species × Nat) → FillState → Option FillState
  | [], st => some st
  | (s, k) :: rest, st =>
    if amt st.flowers s < (k : Int) ∨ st.total ≤ 0 then none
    else requiredLoop rest (consumeN s k { st with bouquet := setVal st.bouquet s 0 })

/-- `if s not in bouquet.keys(): bouquet[s] = 0`. -/
def ensureKey (s : Species) (st : FillState) : FillState :=
  if hasKey st.bouquet s then st else { st with bouquet := setVal st.bouquet s 0 }

/-- `if flowers[s] == 0: del flowers[s]`. -/
def dropEmpty (s : Species) (st : FillState) : FillState :=
  if amt st.flowers s = 0 then { st with flowers := delKey st.flowers s } else st

/-- The body of one filler iteration after its guard has passed: create the
bouquet entry if the species is new, consume one unit, and delete the
species from the snapshot if its count reached zero. -/
def fillerStep (s : Species) (st : FillState) : FillState :=
  dropEmpty s (consumeOne s (ensureKey s st))

/-- The `for i in range(remaining_flowers_to_add)` loop filling the extra
space with the most common flower.  `Except.error ()` models the `IndexError`
raised by `flowers.most_common(1)[0]` on an empty counter; the guarded
failure returns the empty composition and the sentinel cost, exactly as the
source does. -/
def fillerLoop : Nat → FillState → Except Unit (Flowers × ℚ)
  | 0, st => .ok (st.bouquet, st.cost)
  | n + 1, st =>
    match mostCommon? st.flowers with
    | none => .error ()
    | some s =>
      if amt st.flowers s < 0 ∨ st.total ≤ 0 then .ok ([], bigCost)
      else fillerLoop n (fillerStep s st)

/-- `bouquet_from_design_with_most_common_flowers(design, flowers)`:
attempt to build one bouquet for `d` from the snapshot `f`, returning the
composition and the accumulated scarcity cost, or the empty composition with
the sentinel cost on failure.  `Except.error ()` is the `IndexError` case. -/
def bouquet_from_design_with_most_common_flowers (d : Design) (f : Flowers) :
    Except Unit (Flowers × ℚ) :=
  match requiredLoop d.required
      { flowers := f, total := valSum f, remaining := (d.totalSlots : Int),
        bouquet := [], cost := 0 } with
  | none => .ok ([], bigCost)
  | some st =>
    if st.remaining = 0 then .ok (st.bouquet, st.cost)
    else fillerLoop st.remaining.toNat st

/-- The inner `for d in designs` loop of `compute_bouquets`: evaluate every
design on (a deep copy of) the current inventory, keeping the first
design/bouquet pair whose trial cost is strictly below the best seen so far.
The accumulator starts at `(none, bigCost)` — `bouquet_to_generate = {}` and
`cost = 1e99`. -/
def selectLoop (f : Flowers) : List Design → Option (Flowers × String) → ℚ →
    Except Unit (Option (Flowers × String) × ℚ)
  | [], best, c => .ok (best, c)
  | d :: rest, best, c =>
    match bouquet_from_design_with_most_common_flowers d f with
    | .error e => .error e
    | .ok (b, mc) =>
      if mc < c then selectLoop f rest (some (b, d.name)) mc else selectLoop f rest best c

/-- Committing the winning bouquet: `flowers[s] -= bouquet_to_generate[0][s]`
for each species of the composition, in insertion order. -/
def commitBouquet (b : Flowers) (f : Flowers) : Flowers :=
  b.foldl (fun acc p => setVal acc p.1 (amt acc p.1 - p.2)) f

/-- The `while num_flowers > 0` loop of `compute_bouquets`, with explicit
fuel.  `none` means the fuel ran out with the loop still running; otherwise
the result carries the committed bouquets (with their design names), the
final inventory (the Python function mutates its argument in place) and the
final `num_flowers`. -/
def computeLoop (designs : List Design) :
    Nat → Flowers → Int → Option (Except Unit (List (Flowers × String) × Flowers × Int))
  | 0, f, num => if 0 < num then none else some (.ok ([], f, num))
  | fuel + 1, f, num =>
    if 0 < num then
      match selectLoop f designs none bigCost with
      | .error e => some (.error e)
      | .ok (none, _) => some (.ok ([], f, num))
      | .ok (some (b, nm), _) =>
        match computeLoop designs fuel (commitBouquet b f) (num - valSum b) with
        | none => none
        | some (.error e) => some (.error e)
        | some (.ok (bs, ff, nn)) => some (.ok ((b, nm) :: bs, ff, nn))
    else some (.ok ([], f, num))

/-- `compute_bouquets(designs, flowers)` with explicit fuel:
`num_flowers` starts at `sum(flowers.values())`. -/
def compute_bouquets (designs : List Design) (f : Flowers) (fuel : Nat) :
    Option (Except Unit (List (Flowers × String) × Flowers × Int)) :=
  computeLoop designs fuel f (valSum f)

/-- The maximal runs of characters satisfying `p`, in left-to-right order:
`re.findall` for a single character class. -/
def runsOf (p : Char → Bool) : List Char → List (List Char)
  | [] => []
  | c :: cs =>
    let rest := runsOf p cs
    if p c then
      match cs with
      | [] => [[c]]
      | c2 :: _ =>
        if p c2 then
          match rest with
          | r :: rs => (c :: r) :: rs
          | [] => [[c]]
        else [c] :: rest
    else rest

/-- `re.findall(r'[0-9]+', tok)`. -/
def digitRuns (tok : String) : List (List Char) := runsOf Char.isDigit tok.data

/-- `re.findall(r'[a-z]+', tok)`. -/
def speciesRuns (tok : String) : List (List Char) := runsOf Char.isLower tok.data

/-- `int(run)` for a run of decimal digits. -/
def natOfRun (r : List Char) : Nat := r.foldl (fun a c => 10 * a + (c.toNat - 48)) 0

/-- `design[s] = design_counters[i]` over `enumerate(design_species)`:
dict insertion, later occurrences of a species overwriting earlier ones. -/
def buildRequired (pairs : List (Species × Nat)) : AList Nat :=
  pairs.foldl (fun req p => setVal req p.1 p.2) []

/-- `parse_bouquet_design(bouquet_design)`: pair the i-th species run with the
i-th digit run, take the last digit run as the total number of flowers and
the first two characters as the design name.  `none` models the `IndexError`
Python raises when a species run has no matching digit run or there is no
digit run at all. -/
def parse_bouquet_design (tok : String) : Option Design :=
  let counters := (digitRuns tok).map natOfRun
  let species := (speciesRuns tok).map (fun r => String.mk r)
  if species.length ≤ counters.length ∧ counters ≠ [] then
    some { required := buildRequired (species.zip counters)
           totalSlots := counters.getLastD 0
           name := tok.take 2 }
  else none

/-- The order `sorted(bouquet.items())` sorts by: Python tuple comparison on
`(species, count)` pairs, species compared lexicographically by character
(code point), exactly as `str` comparison does. -/
def pairLe (a b : Species × Int) : Prop :=
  a.1.data < b.1.data ∨ (a.1 = b.1 ∧ a.2 ≤ b.2)

instance : DecidableRel pairLe := fun a b =>
  inferInstanceAs (Decidable (a.1.data < b.1.data ∨ (a.1 = b.1 ∧ a.2 ≤ b.2)))

/-- One encoded bouquet: the design name followed by `str(count) + species`
for the composition entries in `sorted` order. -/
def encodeOne (p : Flowers × String) : String :=
  (List.insertionSort pairLe p.1).foldl (fun acc q => acc ++ toString q.2 ++ q.1) p.2

/-- `encode_bouquets(bouquets)`. -/
def encode_bouquets (bs : List (Flowers × String)) : List String := bs.map encodeOne

/-! ### Association-map algebra -/

/-- All stored counts are non-negative (the `Inventory` data-model invariant). -/
def NonnegVals (f : Flowers) : Prop := ∀ p ∈ f, 0 ≤ p.2

/-- The trial cost of a fill result; an uncaught `IndexError` never reaches
the comparison, so its cost is irrelevant and set to the sentinel. -/
def costOf (r : Except Unit (Flowers × ℚ)) : ℚ :=
  match r with
  | .ok p => p.2
  | .error _ => bigCost

/-- The trial composition of a fill result. -/
def bqOf (r : Except Unit (Flowers × ℚ)) : Flowers :=
  match r with
  | .ok p => p.1
  | .error _ => []

/-- The trial cost a design obtains on snapshot `f`. -/
def trialCost (f : Flowers) (d : Design) : ℚ :=
  costOf (bouquet_from_design_with_most_common_flowers d f)

/-- The trial composition a design obtains on snapshot `f`. -/
def trialBq (f : Flowers) (d : Design) : Flowers :=
  bqOf (bouquet_from_design_with_most_common_flowers d f)

/-- Prepending a committed bouquet to the outcome of the remaining loop
iterations, as the recursive case of `computeLoop` does. -/
def consResult (p : Flowers × String)
    (r : Option (Except Unit (List (Flowers × String) × Flowers × Int))) :
    Option (Except Unit (List (Flowers × String) × Flowers × Int)) :=
  match r with
  | none => none
  | some (.error e) => some (.error e)
  | some (.ok (bs, ff, nn)) => some (.ok (p :: bs, ff, nn))

instance {ε α : Type} [DecidableEq ε] [DecidableEq α] : DecidableEq (Except ε α)
  | .error e1, .error e2 =>
    if h : e1 = e2 then isTrue (by rw [h]) else isFalse (by intro hh; cases hh; exact h rfl)
  | .error _, .ok _ => isFalse (by intro hh; cases hh)
  | .ok _, .error _ => isFalse (by intro hh; cases hh)
  | .ok a1, .ok a2 =>
    if h : a1 = a2 then isTrue (by rw [h]) else isFalse (by intro hh; cases hh; exact h rfl)

/-- The concrete design list used to witness C1: the second design uses the
abundant species and must win the cost comparison. -/
def c1wDs : List Design :=
  [{ required := [("b", 1)], totalSlots := 1, name := "AL" },
   { required := [("a", 1)], totalSlots := 1, name := "CL" }]

/-- The concrete inventory used to witness C1. -/
def c1wF : Flowers := [("a", 5), ("b", 1)]

/-- Invariant carried through a fill attempt started from snapshot `f0`. -/
def FillInv (f0 : Flowers) (st : FillState) : Prop :=
  (keys st.flowers).Nodup ∧ NonnegVals st.flowers ∧ st.total = valSum st.flowers ∧
  (keys st.bouquet).Nodup ∧ NonnegVals st.bouquet ∧
  (∀ s, lookupD 0 st.bouquet s + amt st.flowers s = amt f0 s)

/-! ### The per-unit scarcity charges, replayed from the spec's description -/

/-- Modelled from the spec (refinement reference, §4.3 steps 2 and 4): the
list of per-unit scarcity charges `1 - (current amount of s / current total)`
produced by consuming `k` units of `s`, each charge evaluated before its
decrement. -/
def chargeN (s : Species) : Nat → Flowers → Int → List ℚ
  | 0, _, _ => []
  | k + 1, f, t =>
    (1 - (amt f s : ℚ) / (t : ℚ)) :: chargeN s k (setVal f s (amt f s - 1)) (t - 1)

/-- The snapshot after `k` single-unit decrements of species `s`. -/
def decN (s : Species) : Nat → Flowers → Flowers
  | 0, f => f
  | k + 1, f => decN s k (setVal f s (amt f s - 1))

/-- Modelled from the spec (refinement reference): the charges of the
required phase, with the resulting snapshot and running total; `none` on the
immediate-failure condition. -/
def specChargesReq : List (Species × Nat) → Flowers → Int → Option (List ℚ × Flowers × Int)
  | [], f, t => some ([], f, t)
  | (s, k) :: rest, f, t =>
    if amt f s < (k : Int) ∨ t ≤ 0 then none
    else
      match specChargesReq rest (decN s k f) (t - k) with
      | none => none
      | some (l, f2, t2) => some (chargeN s k f t ++ l, f2, t2)

/-- Modelled from the spec (refinement reference): the charges of the
filler phase, one unit of the most abundant species per slot, each charge
evaluated before its decrement; `none` on any failure. -/
def specChargesFiller : Nat → Flowers → Int → Option (List ℚ)
  | 0, _, _ => some []
  | n + 1, f, t =>
    match mostCommon? f with
    | none => none
    | some s =>
      if amt f s < 0 ∨ t ≤ 0 then none
      else
        match specChargesFiller n
          (if amt (setVal f s (amt f s - 1)) s = 0
           then delKey (setVal f s (amt f s - 1)) s
           else setVal f s (amt f s - 1)) (t - 1) with
        | none => none
        | some l => some ((1 - (amt f s : ℚ) / (t : ℚ)) :: l)

/-- Modelled from the spec (refinement reference): all per-unit charges of a
fill attempt, required phase then filler phase. -/
def specCharges (d : Design) (f : Flowers) : Option (List ℚ) :=
  match specChargesReq d.required f (valSum f) with
  | none => none
  | some (l, f2, t2) =>
    if (d.totalSlots : Int) - ((d.required.map Prod.snd).sum : Int) = 0 then some l
    else
      match specChargesFiller
        ((d.totalSlots : Int) - ((d.required.map Prod.snd).sum : Int)).toNat f2 t2 with
      | none => none
      | some l2 => some (l ++ l2)

theorem string_eq_of_data_eq {a b : String} (h : a.data = b.data) : a = b := by
  cases a
  cases b
  exact congrArg String.mk h

instance : IsTotal (Species × Int) pairLe where
  total a b := by
    unfold pairLe
    rcases lt_trichotomy a.1.data b.1.data with h | h | h
    · exact Or.inl (Or.inl h)
    · rcases le_total a.2 b.2 with h2 | h2
      · exact Or.inl (Or.inr ⟨string_eq_of_data_eq h, h2⟩)
      · exact Or.inr (Or.inr ⟨string_eq_of_data_eq h.symm, h2⟩)
    · exact Or.inr (Or.inl h)

instance : IsTrans (Species × Int) pairLe where
  trans a b c hab hbc := by
    unfold pairLe at *
    rcases hab with h1 | ⟨h1, h1v⟩ <;> rcases hbc with h2 | ⟨h2, h2v⟩
    · exact Or.inl (h1.trans h2)
    · exact Or.inl (h2 ▸ h1)
    · exact Or.inl (h1 ▸ h2)
    · exact Or.inr ⟨h1.trans h2, h1v.trans h2v⟩

instance : IsAntisymm (Species × Int) pairLe where
  antisymm a b hab hba := by
    unfold pairLe at *
    rcases hab with h1 | ⟨h1, h1v⟩
    · rcases hba with h2 | ⟨h2, h2v⟩
      · exact absurd (h1.trans h2) (lt_irrefl _)
      · exact absurd h1 (h2 ▸ lt_irrefl _)
    · rcases hba with h2 | ⟨h2, h2v⟩
      · exact absurd h2 (h1 ▸ lt_irrefl _)
      · exact Prod.ext h1 (le_antisymm h1v h2v)

theorem lookupD_setVal_self {α : Type} (d : α) (l : AList α) (s : Species) (v : α) :
    lookupD d (setVal l s v) s = v := by
  induction l with
  | nil => simp [setVal, lookupD]
  | cons p rest ih =>
    by_cases h : p.1 = s
    · simp [setVal, h, lookupD]
    · simp [setVal, h, lookupD, ih]

theorem lookupD_setVal_ne {α : Type} (d : α) (l : AList α) {s t : Species} (v : α)
    (h : t ≠ s) : lookupD d (setVal l s v) t = lookupD d l t := by
  have hst : s ≠ t := fun hh => h hh.symm
  induction l with
  | nil => simp [setVal, lookupD, if_neg hst]
  | cons p rest ih =>
    by_cases hp : p.1 = s
    · rw [setVal, if_pos hp, lookupD, if_neg hst, lookupD, if_neg (hp ▸ hst)]
    · rw [setVal, if_neg hp, lookupD, lookupD]
      by_cases hq : p.1 = t <;> simp [hq, ih]

theorem lookupD_nonneg {f : Flowers} (h : NonnegVals f) (s : Species) :
    0 ≤ amt f s := by
  induction f with
  | nil => simp [amt, lookupD]
  | cons p rest ih =>
    by_cases hp : p.1 = s
    · simpa [amt, lookupD, hp] using h p (by simp)
    · simpa [amt, lookupD, hp] using ih (fun q hq => h q (by simp [hq]))

theorem nonneg_setVal {f : Flowers} {v : Int} (h : NonnegVals f) (s : Species)
    (hv : 0 ≤ v) : NonnegVals (setVal f s v) := by
  induction f with
  | nil => intro p hp; simp [setVal] at hp; simp [hp, hv]
  | cons q rest ih =>
    intro p hp
    by_cases hq : q.1 = s
    · simp [setVal, hq] at hp
      rcases hp with hp | hp
      · simp [hp, hv]
      · exact h p (by simp [hp])
    · simp [setVal, hq] at hp
      rcases hp with hp | hp
      · exact h p (by simp [hp])
      · exact ih (fun r hr => h r (by simp [hr])) p hp

theorem nonneg_delKey {f : Flowers} (h : NonnegVals f) (s : Species) :
    NonnegVals (delKey f s) := by
  induction f with
  | nil => intro p hp; simp [delKey] at hp
  | cons q rest ih =>
    intro p hp
    by_cases hq : q.1 = s
    · exact h p (by simp [delKey, hq] at hp; simp [hp])
    · simp [delKey, hq] at hp
      rcases hp with hp | hp
      · exact h p (by simp [hp])
      · exact ih (fun r hr => h r (by simp [hr])) p hp

theorem valSum_setVal (f : Flowers) (s : Species) (v : Int) :
    valSum (setVal f s v) = valSum f - amt f s + v := by
  induction f with
  | nil => simp [setVal, valSum, amt, lookupD]
  | cons p rest ih =>
    by_cases hp : p.1 = s
    · simp [setVal, hp, valSum, amt, lookupD]; ring
    · simp only [setVal, if_neg hp, valSum, List.map_cons, List.sum_cons, amt, lookupD] at *
      simp [hp] at *
      omega

theorem valSum_delKey (f : Flowers) (s : Species) :
    valSum (delKey f s) = valSum f - amt f s := by
  induction f with
  | nil => simp [delKey, valSum, amt, lookupD]
  | cons p rest ih =>
    by_cases hp : p.1 = s
    · simp [delKey, hp, valSum, amt, lookupD]
    · simp only [delKey, if_neg hp, valSum, List.map_cons, List.sum_cons, amt, lookupD] at *
      simp [hp] at *
      omega

theorem lookupD_delKey_ne {α : Type} (d : α) (f : AList α) {s t : Species} (h : t ≠ s) :
    lookupD d (delKey f s) t = lookupD d f t := by
  have hst : s ≠ t := fun hh => h hh.symm
  induction f with
  | nil => simp [delKey]
  | cons p rest ih =>
    by_cases hp : p.1 = s
    · rw [delKey, if_pos hp, lookupD, if_neg (hp ▸ hst)]
    · rw [delKey, if_neg hp, lookupD, lookupD]
      by_cases hq : p.1 = t <;> simp [hq, ih]

theorem keys_cons {α : Type} (p : Species × α) (rest : AList α) :
    keys (p :: rest) = p.1 :: keys rest := rfl

theorem keys_setVal_mem {α : Type} (l : AList α) {s : Species} (v : α)
    (h : s ∈ keys l) : keys (setVal l s v) = keys l := by
  induction l with
  | nil => simp [keys] at h
  | cons p rest ih =>
    by_cases hp : p.1 = s
    · simp [setVal, hp, keys]
    · rw [keys_cons] at h
      have hr : s ∈ keys rest := by
        rcases List.mem_cons.mp h with h1 | h1
        · exact absurd h1.symm hp
        · exact h1
      rw [setVal, if_neg hp, keys_cons, keys_cons, ih hr]

theorem keys_setVal_not_mem {α : Type} (l : AList α) {s : Species} (v : α)
    (h : ¬ s ∈ keys l) : keys (setVal l s v) = keys l ++ [s] := by
  induction l with
  | nil => simp [setVal, keys]
  | cons p rest ih =>
    simp [keys] at h ih
    by_cases hp : p.1 = s
    · exact absurd hp.symm h.1
    · simp [setVal, hp, keys, ih h.2]

theorem keys_nodup_setVal {α : Type} {l : AList α} (s : Species) (v : α)
    (h : (keys l).Nodup) : (keys (setVal l s v)).Nodup := by
  by_cases hm : s ∈ keys l
  · rw [keys_setVal_mem l v hm]; exact h
  · rw [keys_setVal_not_mem l v hm]
    simpa [List.nodup_append] using ⟨h, hm⟩

theorem keys_delKey_sublist {α : Type} (l : AList α) (s : Species) :
    (keys (delKey l s)).Sublist (keys l) := by
  induction l with
  | nil => simp [delKey]
  | cons p rest ih =>
    by_cases hp : p.1 = s
    · simp only [delKey, if_pos hp, keys, List.map_cons]
      exact List.sublist_cons_of_sublist _ (List.Sublist.refl _)
    · simp only [delKey, if_neg hp, keys, List.map_cons]
      exact List.Sublist.cons₂ _ ih

theorem keys_nodup_delKey {α : Type} {l : AList α} (s : Species)
    (h : (keys l).Nodup) : (keys (delKey l s)).Nodup :=
  (keys_delKey_sublist l s).nodup h

theorem lookupD_delKey_self {α : Type} (d : α) {f : AList α} (s : Species)
    (h : (keys f).Nodup) : lookupD d (delKey f s) s = d := by
  induction f with
  | nil => simp [delKey, lookupD]
  | cons p rest ih =>
    simp only [keys, List.map_cons, List.nodup_cons] at h
    by_cases hp : p.1 = s
    · rw [delKey, if_pos hp]
      subst hp
      clear ih
      induction rest with
      | nil => simp [lookupD]
      | cons q tail ihq =>
        simp only [keys, List.map_cons, List.mem_cons, not_or] at h
        have hq : q.1 ≠ p.1 := fun hh => h.1.1 hh.symm
        simp only [lookupD, if_neg hq]
        exact ihq ⟨fun hm => h.1.2 hm, (List.nodup_cons.mp h.2).2⟩
    · rw [delKey, if_neg hp, lookupD, if_neg hp]
      exact ih h.2

theorem lookupD_eq_of_mem {α : Type} (d : α) {f : AList α} {s : Species} {v : α}
    (hnd : (keys f).Nodup) (hm : (s, v) ∈ f) : lookupD d f s = v := by
  induction f with
  | nil => simp at hm
  | cons p rest ih =>
    simp only [keys, List.map_cons, List.nodup_cons] at hnd
    rcases List.mem_cons.mp hm with hm | hm
    · simp [← hm, lookupD]
    · have hp : p.1 ≠ s := by
        intro hh
        exact hnd.1 (hh ▸ (List.mem_map_of_mem Prod.fst hm))
      rw [lookupD, if_neg hp]
      exact ih hnd.2 hm

/-! ### Properties of `most_common(1)` -/

theorem mostCommon_isSome {f : Flowers} (h : f ≠ []) : ∃ s, mostCommon? f = some s := by
  have hmap : f.map Prod.snd ≠ [] := by simpa using h
  obtain ⟨m, hm⟩ := Option.ne_none_iff_exists'.mp
    (fun hc => hmap (List.max?_eq_none_iff.mp hc))
  have hmem : m ∈ f.map Prod.snd := List.max?_mem (fun a b => max_choice a b) hm
  obtain ⟨p, hpmem, hpm⟩ := List.mem_map.mp hmem
  have : (f.find? (fun q => q.2 = m)).isSome := by
    rw [List.find?_isSome]
    exact ⟨p, hpmem, by simp [hpm]⟩
  obtain ⟨q, hq⟩ := Option.isSome_iff_exists.mp this
  exact ⟨q.1, by simp [mostCommon?, hm, hq]⟩

theorem mostCommon_le_amt {f : Flowers} {s : Species} (hnd : (keys f).Nodup)
    (h : mostCommon? f = some s) : ∀ p ∈ f, p.2 ≤ amt f s := by
  intro p hp
  unfold mostCommon? at h
  cases hmax : (f.map Prod.snd).max? with
  | none => rw [hmax] at h; simp at h
  | some m =>
    rw [hmax] at h
    obtain ⟨q, hq, hq1⟩ := Option.map_eq_some'.mp h
    have hq2 : q.2 = m := by simpa using List.find?_some hq
    have hqmem : q ∈ f := List.mem_of_find?_eq_some hq
    have hamt : amt f s = m := by
      have : q = (s, m) := Prod.ext hq1 hq2
      exact lookupD_eq_of_mem 0 hnd (this ▸ hqmem)
    rw [hamt]
    haveI : Std.Antisymm ((· : Int) ≤ ·) := ⟨fun {a b} h1 h2 => le_antisymm h1 h2⟩
    have := (List.max?_eq_some_iff (fun a => le_refl a) (fun a b => max_choice a b)
      (fun a b c => max_le_iff)).mp hmax
    exact this.2 p.2 (List.mem_map_of_mem Prod.snd hp)

theorem int_sum_nonpos : ∀ {l : List Int}, (∀ x ∈ l, x ≤ 0) → l.sum ≤ 0
  | [], _ => by simp
  | x :: rest, h => by
    have h1 := h x (by simp)
    have h2 := @int_sum_nonpos rest (fun y hy => h y (List.mem_cons_of_mem x hy))
    simp only [List.sum_cons]
    omega

theorem mostCommon_pos {f : Flowers} {s : Species} (hnd : (keys f).Nodup)
    (hpos : 0 < valSum f) (h : mostCommon? f = some s) :
    1 ≤ amt f s := by
  have hex : ∃ p ∈ f, 1 ≤ p.2 := by
    by_contra hc
    push_neg at hc
    have : valSum f ≤ 0 := by
      unfold valSum
      apply int_sum_nonpos
      intro x hx
      obtain ⟨p, hp, hpx⟩ := List.mem_map.mp hx
      have := hc p hp
      omega
    omega
  obtain ⟨p, hp, hp1⟩ := hex
  exact hp1.trans (mostCommon_le_amt hnd h p hp)

/-! ### Unit-consumption bookkeeping -/

theorem lookupD_not_mem {α : Type} (d : α) {l : AList α} {s : Species}
    (h : ¬ s ∈ keys l) : lookupD d l s = d := by
  induction l with
  | nil => rfl
  | cons p rest ih =>
    rw [keys_cons] at h
    have h1 : p.1 ≠ s := by
      intro hh
      rw [hh] at h
      exact h (List.mem_cons_self s (keys rest))
    rw [lookupD, if_neg h1]
    exact ih (fun hm => h (List.mem_cons_of_mem _ hm))

theorem mem_keys_setVal_self {α : Type} (l : AList α) (s : Species) (v : α) :
    s ∈ keys (setVal l s v) := by
  by_cases h : s ∈ keys l
  · rw [keys_setVal_mem l v h]; exact h
  · rw [keys_setVal_not_mem l v h]; simp

theorem consumeN_total (s : Species) : ∀ (k : Nat) (st : FillState),
    (consumeN s k st).total = st.total - k
  | 0, st => by simp [consumeN]
  | k + 1, st => by
    rw [consumeN, consumeN_total s k]
    simp [consumeOne]
    omega

theorem consumeN_remaining (s : Species) : ∀ (k : Nat) (st : FillState),
    (consumeN s k st).remaining = st.remaining - k
  | 0, st => by simp [consumeN]
  | k + 1, st => by
    rw [consumeN, consumeN_remaining s k]
    simp [consumeOne]
    omega

theorem consumeN_bouquet_sum (s : Species) : ∀ (k : Nat) (st : FillState),
    valSum (consumeN s k st).bouquet = valSum st.bouquet + k
  | 0, st => by simp [consumeN]
  | k + 1, st => by
    rw [consumeN, consumeN_bouquet_sum s k]
    simp [consumeOne, valSum_setVal]
    omega

theorem consumeN_bouquet_keys (s : Species) : ∀ (k : Nat) (st : FillState),
    s ∈ keys st.bouquet → keys (consumeN s k st).bouquet = keys st.bouquet
  | 0, st, _ => by simp [consumeN]
  | k + 1, st, h => by
    rw [consumeN, consumeN_bouquet_keys s k _ (by simpa [consumeOne] using mem_keys_setVal_self _ s _)]
    simp [consumeOne, keys_setVal_mem _ _ h]

/-! ### Composition-size accounting (the sum chain) -/

theorem requiredLoop_sum :
    ∀ (req : List (Species × Nat)) (st st' : FillState),
      (keys req).Nodup →
      (∀ s ∈ keys req, ¬ s ∈ keys st.bouquet) →
      requiredLoop req st = some st' →
      valSum st'.bouquet = valSum st.bouquet + ((req.map Prod.snd).sum : Int) ∧
      st'.remaining = st.remaining - ((req.map Prod.snd).sum : Int) ∧
      keys st'.bouquet = keys st.bouquet ++ keys req
  | [], st, st', _, _, h => by
    simp only [requiredLoop, Option.some.injEq] at h
    simp [← h, keys]
  | (s, k) :: rest, st, st', hnd, hdisj, h => by
    rw [requiredLoop] at h
    split at h
    · exact absurd h (by simp)
    · rw [keys_cons] at hnd hdisj
      have hs0 : ¬ s ∈ keys st.bouquet := hdisj s (List.mem_cons_self _ _)
      set st1 : FillState := { st with bouquet := setVal st.bouquet s 0 } with hst1
      have hkeys1 : keys st1.bouquet = keys st.bouquet ++ [s] := keys_setVal_not_mem _ _ hs0
      have hsum1 : valSum st1.bouquet = valSum st.bouquet := by
        simp [hst1, valSum_setVal, amt, lookupD_not_mem _ hs0]
      set st2 := consumeN s k st1 with hst2
      have hmem1 : s ∈ keys st1.bouquet := mem_keys_setVal_self _ _ _
      have hkeys2 : keys st2.bouquet = keys st.bouquet ++ [s] :=
        (consumeN_bouquet_keys s k st1 hmem1).trans hkeys1
      have hsum2 : valSum st2.bouquet = valSum st.bouquet + k := by
        rw [hst2, consumeN_bouquet_sum, hsum1]
      have hrem2 : st2.remaining = st.remaining - k := by
        rw [hst2, consumeN_remaining]
      have hdisj2 : ∀ t ∈ keys rest, ¬ t ∈ keys st2.bouquet := by
        intro t ht
        rw [hkeys2]
        simp only [List.mem_append, List.mem_singleton, not_or]
        refine ⟨hdisj t (List.mem_cons_of_mem _ ht), ?_⟩
        intro hts
        exact (List.nodup_cons.mp hnd).1 (hts ▸ ht)
      obtain ⟨ih1, ih2, ih3⟩ := requiredLoop_sum rest st2 st' (List.nodup_cons.mp hnd).2 hdisj2 h
      refine ⟨?_, ?_, ?_⟩
      · rw [ih1, hsum2]
        simp only [List.map_cons, List.sum_cons]
        push_cast
        ring
      · rw [ih2, hrem2]
        simp only [List.map_cons, List.sum_cons]
        push_cast
        ring
      · rw [ih3, hkeys2, keys_cons, List.append_assoc]; rfl

theorem ensureKey_flowers (s : Species) (st : FillState) :
    (ensureKey s st).flowers = st.flowers := by
  unfold ensureKey; split <;> rfl

theorem ensureKey_total (s : Species) (st : FillState) :
    (ensureKey s st).total = st.total := by
  unfold ensureKey; split <;> rfl

theorem ensureKey_remaining (s : Species) (st : FillState) :
    (ensureKey s st).remaining = st.remaining := by
  unfold ensureKey; split <;> rfl

theorem ensureKey_cost (s : Species) (st : FillState) :
    (ensureKey s st).cost = st.cost := by
  unfold ensureKey; split <;> rfl

theorem ensureKey_bouquet_sum (s : Species) (st : FillState) :
    valSum (ensureKey s st).bouquet = valSum st.bouquet := by
  unfold ensureKey
  split
  · rfl
  · rename_i hnk
    simp only [valSum_setVal, amt]
    rw [lookupD_not_mem _ (by simpa [hasKey] using hnk)]
    ring

theorem dropEmpty_bouquet (s : Species) (st : FillState) :
    (dropEmpty s st).bouquet = st.bouquet := by
  unfold dropEmpty; split <;> rfl

theorem dropEmpty_total (s : Species) (st : FillState) :
    (dropEmpty s st).total = st.total := by
  unfold dropEmpty; split <;> rfl

theorem dropEmpty_remaining (s : Species) (st : FillState) :
    (dropEmpty s st).remaining = st.remaining := by
  unfold dropEmpty; split <;> rfl

theorem dropEmpty_cost (s : Species) (st : FillState) :
    (dropEmpty s st).cost = st.cost := by
  unfold dropEmpty; split <;> rfl

theorem fillerStep_bouquet_sum (s : Species) (st : FillState) :
    valSum (fillerStep s st).bouquet = valSum st.bouquet + 1 := by
  unfold fillerStep
  rw [dropEmpty_bouquet]
  simp only [consumeOne, valSum_setVal, amt]
  rw [ensureKey_bouquet_sum]
  ring

theorem fillerLoop_sum : ∀ (n : Nat) (st : FillState) (b : Flowers) (c : ℚ),
    fillerLoop n st = .ok (b, c) →
    (b = [] ∧ c = bigCost) ∨ valSum b = valSum st.bouquet + n
  | 0, st, b, c, h => by
    simp only [fillerLoop, Except.ok.injEq, Prod.mk.injEq] at h
    exact Or.inr (by simp [← h.1])
  | n + 1, st, b, c, h => by
    rw [fillerLoop] at h
    split at h
    · exact absurd h (by simp)
    · rename_i s hmc
      split at h
      · simp only [Except.ok.injEq, Prod.mk.injEq] at h
        exact Or.inl ⟨h.1.symm, h.2.symm⟩
      · rcases fillerLoop_sum n _ b c h with hl | hr
        · exact Or.inl hl
        · refine Or.inr ?_
          rw [hr, fillerStep_bouquet_sum]
          push_cast
          ring

theorem fill_ok_sum {d : Design} {f : Flowers} {b : Flowers} {c : ℚ}
    (hnd : (keys d.required).Nodup)
    (h : bouquet_from_design_with_most_common_flowers d f = .ok (b, c)) :
    (b = [] ∧ c = bigCost) ∨
      valSum b = max ((d.required.map Prod.snd).sum : Int) (d.totalSlots : Int) := by
  unfold bouquet_from_design_with_most_common_flowers at h
  split at h
  · simp only [Except.ok.injEq, Prod.mk.injEq] at h
    exact Or.inl ⟨h.1.symm, h.2.symm⟩
  · rename_i st heq
    obtain ⟨hsum, hrem, _⟩ := requiredLoop_sum d.required _ st hnd (by simp [keys]) heq
    simp only [valSum, List.map_nil, List.sum_nil] at hsum
    simp only at hrem
    split at h
    · simp only [Except.ok.injEq, Prod.mk.injEq] at h
      refine Or.inr ?_
      rw [← h.1]
      show valSum st.bouquet = _
      rw [show valSum st.bouquet = (List.map Prod.snd st.bouquet).sum from rfl, hsum]
      rename_i hrem0
      rw [hrem0] at hrem
      omega
    · rcases fillerLoop_sum _ st b c h with hl | hr
      · exact Or.inl hl
      · refine Or.inr ?_
        rw [hr]
        rw [show valSum st.bouquet = (List.map Prod.snd st.bouquet).sum from rfl, hsum]
        rename_i hrem0
        omega

/-! ### The candidate-selection loop -/

theorem selectLoop_no_improvement (f : Flowers) :
    ∀ (ds : List Design) (acc : Option (Flowers × String)) (c0 : ℚ),
      (∀ d ∈ ds, ∃ p, bouquet_from_design_with_most_common_flowers d f = .ok p) →
      (∀ d ∈ ds, ¬ costOf (bouquet_from_design_with_most_common_flowers d f) < c0) →
      selectLoop f ds acc c0 = .ok (acc, c0)
  | [], acc, c0, _, _ => rfl
  | d :: rest, acc, c0, hok, hni => by
    obtain ⟨p, hp⟩ := hok d (List.mem_cons_self _ _)
    obtain ⟨b, mc⟩ := p
    have hcost : costOf (bouquet_from_design_with_most_common_flowers d f) = mc := by
      rw [hp]; rfl
    rw [selectLoop, hp]
    show (if mc < c0 then selectLoop f rest (some (b, d.name)) mc
      else selectLoop f rest acc c0) = .ok (acc, c0)
    have hn : ¬ mc < c0 := hcost ▸ hni d (List.mem_cons_self _ _)
    rw [if_neg hn]
    exact selectLoop_no_improvement f rest acc c0
      (fun d2 h2 => hok d2 (List.mem_cons_of_mem _ h2))
      (fun d2 h2 => hni d2 (List.mem_cons_of_mem _ h2))

theorem selectLoop_mem (f : Flowers) :
    ∀ (ds : List Design) (acc : Option (Flowers × String)) (c0 : ℚ)
      (bp : Flowers × String) (c : ℚ),
      selectLoop f ds acc c0 = .ok (some bp, c) →
      (acc = some bp ∧ c = c0) ∨
        ∃ d ∈ ds, bouquet_from_design_with_most_common_flowers d f = .ok (bp.1, c) ∧
          bp.2 = d.name ∧ c < c0
  | [], acc, c0, bp, c, h => by
    simp only [selectLoop, Except.ok.injEq, Prod.mk.injEq] at h
    exact Or.inl ⟨h.1, h.2.symm⟩
  | d :: rest, acc, c0, bp, c, h => by
    rw [selectLoop] at h
    cases hp : bouquet_from_design_with_most_common_flowers d f with
    | error e => rw [hp] at h; exact absurd h (by simp)
    | ok p =>
      obtain ⟨pb, pc⟩ := p
      rw [hp] at h
      replace h : (if pc < c0 then selectLoop f rest (some (pb, d.name)) pc
          else selectLoop f rest acc c0) = .ok (some bp, c) := h
      by_cases hc : pc < c0
      · rw [if_pos hc] at h
        rcases selectLoop_mem f rest _ _ bp c h with ⟨h1, h2⟩ | ⟨d2, hd2, h1, h2, h3⟩
        · obtain ⟨hb1, hb2⟩ := Prod.mk.inj (Option.some.inj h1)
          refine Or.inr ⟨d, List.mem_cons_self _ _, ?_, ?_, ?_⟩
          · rw [hp, hb1, h2]
          · rw [← hb2]
          · rw [h2]; exact hc
        · exact Or.inr ⟨d2, List.mem_cons_of_mem _ hd2, h1, h2, h3.trans hc⟩
      · rw [if_neg hc] at h
        rcases selectLoop_mem f rest _ _ bp c h with hl | ⟨d2, hd2, h1, h2, h3⟩
        · exact Or.inl hl
        · exact Or.inr ⟨d2, List.mem_cons_of_mem _ hd2, h1, h2, h3⟩

theorem selectLoop_argmin (f : Flowers) :
    ∀ (ds : List Design) (acc : Option (Flowers × String)) (c0 : ℚ),
      (∀ d ∈ ds, ∃ p, bouquet_from_design_with_most_common_flowers d f = .ok p) →
      (∃ d ∈ ds, trialCost f d < c0) →
      ∃ i : Fin ds.length,
        selectLoop f ds acc c0 =
          .ok (some (trialBq f (ds.get i), (ds.get i).name), trialCost f (ds.get i)) ∧
        trialCost f (ds.get i) < c0 ∧
        (∀ j : Fin ds.length, trialCost f (ds.get i) ≤ trialCost f (ds.get j)) ∧
        (∀ j : Fin ds.length, (j : Nat) < (i : Nat) →
          trialCost f (ds.get i) < trialCost f (ds.get j))
  | [], acc, c0, _, hfeas => by simp at hfeas
  | d :: rest, acc, c0, hok, hfeas => by
    obtain ⟨p, hp⟩ := hok d (List.mem_cons_self _ _)
    obtain ⟨pb, pc⟩ := p
    have hok2 : ∀ d2 ∈ rest, ∃ p, bouquet_from_design_with_most_common_flowers d2 f = .ok p :=
      fun d2 h2 => hok d2 (List.mem_cons_of_mem _ h2)
    have hcost_d : trialCost f d = pc := by unfold trialCost costOf; rw [hp]
    have hbq_d : trialBq f d = pb := by unfold trialBq bqOf; rw [hp]
    have hstep : selectLoop f (d :: rest) acc c0 =
        (if pc < c0 then selectLoop f rest (some (pb, d.name)) pc
         else selectLoop f rest acc c0) := by
      rw [selectLoop, hp]
    by_cases hc : pc < c0
    · rw [if_pos hc] at hstep
      by_cases hrest : ∃ d2 ∈ rest, trialCost f d2 < pc
      · obtain ⟨i2, hi1, hi2, hi3, hi4⟩ := selectLoop_argmin f rest (some (pb, d.name)) pc hok2 hrest
        refine ⟨i2.succ, ?_, hi2.trans hc, ?_, ?_⟩
        · rw [hstep]; exact hi1
        · intro j
          rcases j with ⟨jv, hjlt⟩
          cases jv with
          | zero =>
            show trialCost f (rest.get i2) ≤ trialCost f d
            rw [hcost_d]
            exact hi2.le
          | succ jv2 => exact hi3 ⟨jv2, by simpa using hjlt⟩
        · intro j hj
          rcases j with ⟨jv, hjlt⟩
          cases jv with
          | zero =>
            show trialCost f (rest.get i2) < trialCost f d
            rw [hcost_d]
            exact hi2
          | succ jv2 =>
            exact hi4 ⟨jv2, by simpa using hjlt⟩ (by simpa using hj)
      · push_neg at hrest
        have hdone : selectLoop f rest (some (pb, d.name)) pc = .ok (some (pb, d.name), pc) :=
          selectLoop_no_improvement f rest _ pc hok2
            (fun d2 h2 => not_lt.mpr (hrest d2 h2))
        refine ⟨⟨0, by simp⟩, ?_, ?_, ?_, ?_⟩
        · rw [hstep, hdone]
          show _ = Except.ok (some (trialBq f d, d.name), trialCost f d)
          rw [hcost_d, hbq_d]
        · show trialCost f d < c0
          rw [hcost_d]; exact hc
        · intro j
          rcases j with ⟨jv, hjlt⟩
          cases jv with
          | zero => exact le_refl _
          | succ jv2 =>
            show trialCost f d ≤ trialCost f (rest.get ⟨jv2, by simpa using hjlt⟩)
            rw [hcost_d]
            exact not_lt.mp (not_lt.mpr (hrest _ (rest.get_mem _ _)))
        · intro j hj
          simp at hj
    · rw [if_neg hc] at hstep
      have hfeas2 : ∃ d2 ∈ rest, trialCost f d2 < c0 := by
        obtain ⟨d2, hd2m, hd2c⟩ := hfeas
        rcases List.mem_cons.mp hd2m with heq | hmem
        · rw [heq, hcost_d] at hd2c
          exact absurd hd2c hc
        · exact ⟨d2, hmem, hd2c⟩
      obtain ⟨i2, hi1, hi2, hi3, hi4⟩ := selectLoop_argmin f rest acc c0 hok2 hfeas2
      have hc0pc : c0 ≤ pc := not_lt.mp hc
      refine ⟨i2.succ, ?_, hi2, ?_, ?_⟩
      · rw [hstep]; exact hi1
      · intro j
        rcases j with ⟨jv, hjlt⟩
        cases jv with
        | zero =>
          show trialCost f (rest.get i2) ≤ trialCost f d
          rw [hcost_d]
          exact (hi2.trans_le hc0pc).le
        | succ jv2 => exact hi3 ⟨jv2, by simpa using hjlt⟩
      · intro j hj
        rcases j with ⟨jv, hjlt⟩
        cases jv with
        | zero =>
          show trialCost f (rest.get i2) < trialCost f d
          rw [hcost_d]
          exact hi2.trans_le hc0pc
        | succ jv2 =>
          exact hi4 ⟨jv2, by simpa using hjlt⟩ (by simpa using hj)

end Bloomon

namespace Bloomon

/-- C1: in every iteration, every design is evaluated on an independent
snapshot of the ledger, and the iteration commits the design/bouquet pair of
globally minimum trial cost under strict less-than comparison: the winning
index achieves the minimum cost, every strictly earlier design has strictly
larger cost (so the first design in list order wins ties and a later
equal-cost candidate never replaces it), and the loop commits exactly that
pair.  (The snapshot independence is inherent in the embedding: each trial is
a pure function of the same ledger `f`.) -/
theorem c1_commits_first_global_min (f : Flowers) (ds : List Design) (num : Int)
    (hok : ∀ d ∈ ds, ∃ p, bouquet_from_design_with_most_common_flowers d f = .ok p)
    (hfeas : ∃ d ∈ ds, trialCost f d < bigCost) :
    ∃ i : Fin ds.length,
      selectLoop f ds none bigCost =
        .ok (some (trialBq f (ds.get i), (ds.get i).name), trialCost f (ds.get i)) ∧
      trialCost f (ds.get i) < bigCost ∧
      (∀ j : Fin ds.length, trialCost f (ds.get i) ≤ trialCost f (ds.get j)) ∧
      (∀ j : Fin ds.length, (j : Nat) < (i : Nat) →
        trialCost f (ds.get i) < trialCost f (ds.get j)) ∧
      (0 < num → ∀ fuel : Nat,
        computeLoop ds (fuel + 1) f num =
          consResult (trialBq f (ds.get i), (ds.get i).name)
            (computeLoop ds fuel (commitBouquet (trialBq f (ds.get i)) f)
              (num - valSum (trialBq f (ds.get i))))) := by
  obtain ⟨i, hi1, hi2, hi3, hi4⟩ := selectLoop_argmin f ds none bigCost hok hfeas
  refine ⟨i, hi1, hi2, hi3, hi4, ?_⟩
  intro hnum fuel
  rw [computeLoop, if_pos hnum, hi1]
  rfl

section ConcreteEvaluation

attribute [local semireducible] Rat.mul Rat.inv Rat.add Rat.sub

set_option maxRecDepth 4000000

set_option synthInstance.maxSize 2000

/-- Witness for C1: on inventory `{a:5, b:1}`, design `CL1a` (cost 1/6) beats
design `AL1b` (cost 5/6) and is committed. -/
theorem c1_commits_first_global_min_witness :
    ∃ i : Fin c1wDs.length,
      selectLoop c1wF c1wDs none bigCost =
        .ok (some (trialBq c1wF (c1wDs.get i), (c1wDs.get i).name),
          trialCost c1wF (c1wDs.get i)) ∧
      trialCost c1wF (c1wDs.get i) < bigCost ∧
      (∀ j : Fin c1wDs.length,
        trialCost c1wF (c1wDs.get i) ≤ trialCost c1wF (c1wDs.get j)) ∧
      (∀ j : Fin c1wDs.length, (j : Nat) < (i : Nat) →
        trialCost c1wF (c1wDs.get i) < trialCost c1wF (c1wDs.get j)) ∧
      (0 < (6 : Int) → ∀ fuel : Nat,
        computeLoop c1wDs (fuel + 1) c1wF 6 =
          consResult (trialBq c1wF (c1wDs.get i), (c1wDs.get i).name)
            (computeLoop c1wDs fuel (commitBouquet (trialBq c1wF (c1wDs.get i)) c1wF)
              (6 - valSum (trialBq c1wF (c1wDs.get i))))) :=
  c1_commits_first_global_min c1wF c1wDs 6
    (by
      intro d hd
      rcases List.mem_cons.mp hd with rfl | hd2
      · exact ⟨([("b", 1)], 5 / 6), by decide⟩
      rcases List.mem_cons.mp hd2 with rfl | hd3
      · exact ⟨([("a", 1)], 1 / 6), by decide⟩
      · simp at hd3)
    ⟨{ required := [("a", 1)], totalSlots := 1, name := "CL" },
      by simp [c1wDs], by decide⟩

/-- C2 (code bug): the spec and the function docstring promise the empty
composition and the sentinel `1e99` whenever the bouquet cannot be formed,
but when the snapshot counter becomes empty at a filler-slot query,
`flowers.most_common(1)[0]` raises `IndexError` (modelled as `.error ()`)
before the guard can fire: design token `XL1a3` with inventory `{a: 2}`
crashes instead of failing, both in the filler alone and in a full
`compute_bouquets` run. -/
theorem c2_filler_raises_on_empty_counter :
    parse_bouquet_design "XL1a3" =
      some { required := [("a", 1)], totalSlots := 3, name := "XL" } ∧
    bouquet_from_design_with_most_common_flowers
      { required := [("a", 1)], totalSlots := 3, name := "XL" } [("a", 2)] = .error () ∧
    compute_bouquets [{ required := [("a", 1)], totalSlots := 3, name := "XL" }]
      [("a", 2)] 3 = some (.error ()) := by
  refine ⟨by decide, rfl, rfl⟩

/-- C3 counterexample: the parser accepts token `XL3a2`, whose design demands
3 units of species a but has only 2 total slots.  On snapshot `{a: 5}` the
fill succeeds with non-sentinel cost 0, yet the composition sums to 3, not
the design's `totalSlots = 2`. -/
theorem c3_counterexample :
    parse_bouquet_design "XL3a2" =
      some { required := [("a", 3)], totalSlots := 2, name := "XL" } ∧
    bouquet_from_design_with_most_common_flowers
      { required := [("a", 3)], totalSlots := 2, name := "XL" } [("a", 5)] =
      .ok ([("a", 3)], 0) ∧
    (0 : ℚ) ≠ bigCost ∧
    valSum [("a", 3)] ≠
      (({ required := [("a", 3)], totalSlots := 2, name := "XL" } : Design).totalSlots : Int) := by
  refine ⟨by decide, rfl, by decide, by decide⟩

/-- C3 amended: for a design whose required mapping is dict-valid (no
duplicate species) and which satisfies the Design data-model invariant
`sum(required.values()) ≤ totalSlots`, every fill that succeeds (returns a
non-sentinel cost) yields a composition summing exactly to `totalSlots`;
without the invariant the sum is `max(sum(required.values()), totalSlots)`. -/
theorem c3_sum_eq_totalSlots (d : Design) (f : Flowers) (b : Flowers) (c : ℚ)
    (hnd : (keys d.required).Nodup)
    (h : bouquet_from_design_with_most_common_flowers d f = .ok (b, c))
    (hc : c ≠ bigCost)
    (hinv : (d.required.map Prod.snd).sum ≤ d.totalSlots) :
    valSum b = (d.totalSlots : Int) := by
  rcases fill_ok_sum hnd h with ⟨_, hbig⟩ | hsum
  · exact absurd hbig hc
  · rw [hsum]
    have : ((d.required.map Prod.snd).sum : Int) ≤ (d.totalSlots : Int) := by
      exact_mod_cast hinv
    omega

/-- Witness for C3 (amended): the spec's scenario-B design `BL2a0b2` on
inventory `{a: 5}` fills successfully and its composition sums to 2. -/
theorem c3_sum_eq_totalSlots_witness :
    valSum [("a", 2), ("b", 0)] =
      (({ required := [("a", 2), ("b", 0)], totalSlots := 2, name := "BL" } : Design).totalSlots : Int) :=
  c3_sum_eq_totalSlots
    { required := [("a", 2), ("b", 0)], totalSlots := 2, name := "BL" }
    [("a", 5)] [("a", 2), ("b", 0)] 0 (by decide) rfl (by decide) (by decide)

/-- C4 counterexample: on design list `["BL2a0b2"]` with inventory `{a: 5}`
the run does produce exactly two bouquets, each consuming 2 units of species
a, and stops with 1 unit left — but each bouquet's composition carries the
explicit zero-count entry for species b, so the encoded token is `BL2a0b`,
not `BL2a` as the claim states. -/
theorem c4_counterexample :
    parse_bouquet_design "BL2a0b2" =
      some { required := [("a", 2), ("b", 0)], totalSlots := 2, name := "BL" } ∧
    compute_bouquets [{ required := [("a", 2), ("b", 0)], totalSlots := 2, name := "BL" }]
      [("a", 5)] 6 =
      some (.ok ([([("a", 2), ("b", 0)], "BL"), ([("a", 2), ("b", 0)], "BL")],
        [("a", 1), ("b", 0)], 1)) ∧
    encode_bouquets [([("a", 2), ("b", 0)], "BL"), ([("a", 2), ("b", 0)], "BL")] ≠
      ["BL2a", "BL2a"] := by
  refine ⟨by decide, rfl, by decide⟩

/-- C4 amended: the run on `["BL2a0b2"]` with `{a: 5}` produces exactly two
bouquets, each consuming 2 units of species a (and 0 of b, recorded as an
explicit zero entry), each encoded as `BL2a0b`, and stops with
`remainingTotal = 1`. -/
theorem c4_scenario_b_run :
    parse_bouquet_design "BL2a0b2" =
      some { required := [("a", 2), ("b", 0)], totalSlots := 2, name := "BL" } ∧
    compute_bouquets [{ required := [("a", 2), ("b", 0)], totalSlots := 2, name := "BL" }]
      [("a", 5)] 6 =
      some (.ok ([([("a", 2), ("b", 0)], "BL"), ([("a", 2), ("b", 0)], "BL")],
        [("a", 1), ("b", 0)], 1)) ∧
    encode_bouquets [([("a", 2), ("b", 0)], "BL"), ([("a", 2), ("b", 0)], "BL")] =
      ["BL2a0b", "BL2a0b"] := by
  refine ⟨by decide, rfl, by decide⟩

end ConcreteEvaluation

/-! ### Committing and loop progress -/

theorem commitBouquet_cons (p : Species × Int) (rest f : Flowers) :
    commitBouquet (p :: rest) f = commitBouquet rest (setVal f p.1 (amt f p.1 - p.2)) := rfl

theorem valSum_commitBouquet : ∀ (b f : Flowers),
    valSum (commitBouquet b f) = valSum f - valSum b
  | [], f => by simp [commitBouquet, valSum]
  | p :: rest, f => by
    rw [commitBouquet_cons, valSum_commitBouquet rest, valSum_setVal]
    simp only [valSum, List.map_cons, List.sum_cons]
    ring

/-- A bouquet actually selected by the inner loop came from a successful fill
of one of the designs, with trial cost strictly below the sentinel. -/
theorem selected_from_fill (f : Flowers) (ds : List Design)
    {b : Flowers} {nm : String} {c : ℚ}
    (h : selectLoop f ds none bigCost = .ok (some (b, nm), c)) :
    ∃ d ∈ ds, bouquet_from_design_with_most_common_flowers d f = .ok (b, c) ∧
      nm = d.name ∧ c < bigCost := by
  rcases selectLoop_mem f ds none bigCost (b, nm) c h with ⟨h1, _⟩ | hex
  · exact absurd h1 (by simp)
  · exact hex

/-- If every design is dict-valid with at least one total slot, a committed
bouquet consumes at least one flower unit. -/
theorem selected_bouquet_pos (f : Flowers) (ds : List Design)
    (hval : ∀ d ∈ ds, (keys d.required).Nodup ∧ 1 ≤ d.totalSlots)
    {b : Flowers} {nm : String} {c : ℚ}
    (h : selectLoop f ds none bigCost = .ok (some (b, nm), c)) :
    1 ≤ valSum b := by
  obtain ⟨d, hd, h1, _, h3⟩ := selected_from_fill f ds h
  rcases fill_ok_sum (hval d hd).1 h1 with ⟨_, hbig⟩ | hsum
  · rw [hbig] at h3
    exact absurd h3 (lt_irrefl _)
  · have hslots : 1 ≤ (d.totalSlots : Int) := by exact_mod_cast (hval d hd).2
    rw [hsum]
    exact le_trans hslots (le_max_right _ _)

theorem computeLoop_term (ds : List Design)
    (hval : ∀ d ∈ ds, (keys d.required).Nodup ∧ 1 ≤ d.totalSlots) :
    ∀ (fuel : Nat) (f : Flowers), (valSum f).toNat < fuel →
      computeLoop ds fuel f (valSum f) ≠ none
  | 0, f, hfuel => by omega
  | fuel + 1, f, hfuel => by
    rw [computeLoop]
    by_cases hnum : 0 < valSum f
    · rw [if_pos hnum]
      cases hsel : selectLoop f ds none bigCost with
      | error e => simp
      | ok pr =>
        obtain ⟨best, c⟩ := pr
        cases best with
        | none => simp
        | some bn =>
          obtain ⟨b, nm⟩ := bn
          have hb1 : 1 ≤ valSum b := selected_bouquet_pos f ds hval hsel
          have hcommit : valSum f - valSum b = valSum (commitBouquet b f) :=
            (valSum_commitBouquet b f).symm
          have hih : computeLoop ds fuel (commitBouquet b f)
              (valSum (commitBouquet b f)) ≠ none := by
            apply computeLoop_term ds hval fuel
            rw [valSum_commitBouquet]
            omega
          show consResult (b, nm)
            (computeLoop ds fuel (commitBouquet b f) (valSum f - valSum b)) ≠ none
          rw [hcommit]
          cases hrec : computeLoop ds fuel (commitBouquet b f) (valSum (commitBouquet b f)) with
          | none => exact absurd hrec hih
          | some r => cases r <;> simp [consResult]
    · rw [if_neg hnum]
      simp

/-! ### The fill-state invariant: snapshot counts stay non-negative and the
bouquet plus the remaining snapshot account exactly for the initial snapshot -/

theorem mem_keys_of_amt_pos {f : Flowers} {s : Species} (h : 1 ≤ amt f s) :
    s ∈ keys f := by
  by_contra hc
  rw [amt, lookupD_not_mem _ hc] at h
  omega

theorem FillInv_consumeOne {f0 : Flowers} {s : Species} {st : FillState}
    (hinv : FillInv f0 st) (hpos : 1 ≤ amt st.flowers s) :
    FillInv f0 (consumeOne s st) := by
  obtain ⟨h1, h2, h3, h4, h5, h6⟩ := hinv
  have hmem : s ∈ keys st.flowers := mem_keys_of_amt_pos hpos
  refine ⟨?_, ?_, ?_, ?_, ?_, ?_⟩
  · simpa [consumeOne, keys_setVal_mem _ _ hmem] using h1
  · exact nonneg_setVal h2 s (by omega)
  · simp only [consumeOne]
    rw [valSum_setVal]
    omega
  · exact keys_nodup_setVal _ _ h4
  · exact nonneg_setVal h5 s (by have := lookupD_nonneg h5 s; omega)
  · intro t
    by_cases hts : t = s
    · subst hts
      have h6s := h6 t
      simp only [amt] at h6s
      simp only [consumeOne, amt, lookupD_setVal_self]
      omega
    · simp only [consumeOne, amt, lookupD_setVal_ne _ _ _ hts]
      exact h6 t

theorem FillInv_consumeN {f0 : Flowers} (s : Species) :
    ∀ (k : Nat) {st : FillState}, FillInv f0 st → (k : Int) ≤ amt st.flowers s →
      FillInv f0 (consumeN s k st)
  | 0, st, hinv, _ => hinv
  | k + 1, st, hinv, hk => by
    rw [consumeN]
    have hpos : 1 ≤ amt st.flowers s := by omega
    apply FillInv_consumeN s k (FillInv_consumeOne hinv hpos)
    simp only [consumeOne, amt, lookupD_setVal_self]
    rw [amt] at hk
    omega

theorem FillInv_requiredLoop {f0 : Flowers} :
    ∀ (req : List (Species × Nat)) (st st' : FillState),
      (keys req).Nodup →
      (∀ s ∈ keys req, ¬ s ∈ keys st.bouquet) →
      FillInv f0 st →
      requiredLoop req st = some st' →
      FillInv f0 st'
  | [], st, st', _, _, hinv, h => by
    simp only [requiredLoop, Option.some.injEq] at h
    exact h ▸ hinv
  | (s, k) :: rest, st, st', hnd, hdisj, hinv, h => by
    rw [requiredLoop] at h
    split at h
    · exact absurd h (by simp)
    · rename_i hguard
      push_neg at hguard
      rw [keys_cons] at hnd hdisj
      have hs0 : ¬ s ∈ keys st.bouquet := hdisj s (List.mem_cons_self _ _)
      have hinv1 : FillInv f0 { st with bouquet := setVal st.bouquet s 0 } := by
        obtain ⟨h1, h2, h3, h4, h5, h6⟩ := hinv
        refine ⟨h1, h2, h3, keys_nodup_setVal _ _ h4, nonneg_setVal h5 s le_rfl, ?_⟩
        intro t
        by_cases hts : t = s
        · subst hts
          simp only [lookupD_setVal_self]
          have := h6 t
          rw [lookupD_not_mem _ hs0] at this
          omega
        · rw [lookupD_setVal_ne _ _ _ hts]
          exact h6 t
      have hinv2 := FillInv_consumeN s k hinv1 (by
        have := hguard.1
        simpa using this)
      apply FillInv_requiredLoop rest _ st' (List.nodup_cons.mp hnd).2 _ hinv2 h
      intro t ht
      have hkeys2 : keys (consumeN s k { st with bouquet := setVal st.bouquet s 0 }).bouquet
          = keys st.bouquet ++ [s] := by
        rw [consumeN_bouquet_keys s k _ (mem_keys_setVal_self _ _ _)]
        exact keys_setVal_not_mem _ _ hs0
      rw [hkeys2]
      simp only [List.mem_append, List.mem_singleton, not_or]
      exact ⟨hdisj t (List.mem_cons_of_mem _ ht),
        fun hts => (List.nodup_cons.mp hnd).1 (hts ▸ ht)⟩

theorem FillInv_bouquet_bounds {f0 : Flowers} {st : FillState} (hinv : FillInv f0 st) :
    (keys st.bouquet).Nodup ∧ NonnegVals st.bouquet ∧
    ∀ s, lookupD 0 st.bouquet s ≤ amt f0 s := by
  obtain ⟨_, h2, _, h4, h5, h6⟩ := hinv
  refine ⟨h4, h5, fun s => ?_⟩
  have := h6 s
  have := lookupD_nonneg h2 s
  omega

theorem FillInv_fillerStep {f0 : Flowers} {s : Species} {st : FillState}
    (hinv : FillInv f0 st) (hmc : mostCommon? st.flowers = some s)
    (hguard : ¬ (amt st.flowers s < 0 ∨ st.total ≤ 0)) :
    FillInv f0 (fillerStep s st) := by
  push_neg at hguard
  have htot : 0 < valSum st.flowers := by
    rw [← hinv.2.2.1]
    exact hguard.2
  have hpos : 1 ≤ amt st.flowers s := mostCommon_pos hinv.1 htot hmc
  have hinvE : FillInv f0 (ensureKey s st) := by
    obtain ⟨h1, h2, h3, h4, h5, h6⟩ := hinv
    unfold ensureKey
    split
    · exact ⟨h1, h2, h3, h4, h5, h6⟩
    · rename_i hnk
      have hs0 : ¬ s ∈ keys st.bouquet := by simpa [hasKey] using hnk
      refine ⟨h1, h2, h3, keys_nodup_setVal _ _ h4, nonneg_setVal h5 s le_rfl, ?_⟩
      intro t
      by_cases hts : t = s
      · subst hts
        have h6t := h6 t
        rw [lookupD_not_mem _ hs0] at h6t
        simpa [lookupD_setVal_self] using h6t
      · rw [lookupD_setVal_ne _ _ _ hts]
        exact h6 t
  have hinvC : FillInv f0 (consumeOne s (ensureKey s st)) :=
    FillInv_consumeOne hinvE (by rw [ensureKey_flowers]; exact hpos)
  unfold fillerStep dropEmpty
  split
  · rename_i hz
    obtain ⟨g1, g2, g3, g4, g5, g6⟩ := hinvC
    refine ⟨keys_nodup_delKey _ g1, nonneg_delKey g2 _, ?_, g4, g5, ?_⟩
    · simp only [valSum_delKey]
      simp only [amt] at hz
      simp only [amt]
      omega
    · intro t
      by_cases hts : t = s
      · subst hts
        have g6t := g6 t
        simp only [amt] at g6t hz
        simp only [amt, lookupD_delKey_self _ _ g1]
        omega
      · have g6t := g6 t
        simp only [amt] at g6t
        simp only [amt, lookupD_delKey_ne _ _ hts]
        omega
  · exact hinvC

theorem fillerLoop_bounds {f0 : Flowers} :
    ∀ (n : Nat) (st : FillState) (b : Flowers) (c : ℚ),
      FillInv f0 st → fillerLoop n st = .ok (b, c) →
      (b = [] ∧ c = bigCost) ∨
        ((keys b).Nodup ∧ NonnegVals b ∧ ∀ s, lookupD 0 b s ≤ amt f0 s)
  | 0, st, b, c, hinv, h => by
    simp only [fillerLoop, Except.ok.injEq, Prod.mk.injEq] at h
    exact Or.inr (h.1 ▸ FillInv_bouquet_bounds hinv)
  | n + 1, st, b, c, hinv, h => by
    rw [fillerLoop] at h
    split at h
    · exact absurd h (by simp)
    · rename_i s hmc
      split at h
      · simp only [Except.ok.injEq, Prod.mk.injEq] at h
        exact Or.inl ⟨h.1.symm, h.2.symm⟩
      · rename_i hguard
        exact fillerLoop_bounds n _ b c (FillInv_fillerStep hinv hmc hguard) h

theorem fill_ok_bounded {d : Design} {f b : Flowers} {c : ℚ}
    (hfnd : (keys f).Nodup) (hfnn : NonnegVals f) (hrnd : (keys d.required).Nodup)
    (h : bouquet_from_design_with_most_common_flowers d f = .ok (b, c)) :
    (b = [] ∧ c = bigCost) ∨
      ((keys b).Nodup ∧ NonnegVals b ∧ ∀ s, lookupD 0 b s ≤ amt f s) := by
  unfold bouquet_from_design_with_most_common_flowers at h
  split at h
  · simp only [Except.ok.injEq, Prod.mk.injEq] at h
    exact Or.inl ⟨h.1.symm, h.2.symm⟩
  · rename_i st heq
    have hinv0 : FillInv f
        { flowers := f, total := valSum f, remaining := (d.totalSlots : Int),
          bouquet := [], cost := 0 } := by
      refine ⟨hfnd, hfnn, rfl, by simp [keys], ?_, ?_⟩
      · intro p hp
        simp at hp
      · intro s
        simp [lookupD, amt]
    have hinv := FillInv_requiredLoop d.required _ st hrnd (by simp [keys]) hinv0 heq
    split at h
    · simp only [Except.ok.injEq, Prod.mk.injEq] at h
      exact Or.inr (h.1 ▸ FillInv_bouquet_bounds hinv)
    · exact fillerLoop_bounds _ st b c hinv h

/-! ### Committing a bouquet keeps the real ledger non-negative -/

theorem amt_commitBouquet_not_mem : ∀ (b f : Flowers) (s : Species),
    ¬ s ∈ keys b → amt (commitBouquet b f) s = amt f s
  | [], _, _, _ => rfl
  | p :: rest, f, s, h => by
    rw [keys_cons] at h
    have hs1 : s ≠ p.1 := fun hh => h (by rw [hh]; exact List.mem_cons_self _ _)
    rw [commitBouquet_cons,
      amt_commitBouquet_not_mem rest _ s (fun hm => h (List.mem_cons_of_mem _ hm))]
    rw [amt, amt, lookupD_setVal_ne _ _ _ hs1]
    rfl

theorem amt_commitBouquet : ∀ (b f : Flowers), (keys b).Nodup →
    ∀ s, amt (commitBouquet b f) s = amt f s - lookupD 0 b s
  | [], f, _, s => by simp [commitBouquet, lookupD]
  | p :: rest, f, hnd, s => by
    rw [keys_cons, List.nodup_cons] at hnd
    rw [commitBouquet_cons]
    by_cases hsp : s = p.1
    · subst hsp
      rw [amt_commitBouquet_not_mem rest _ _ hnd.1]
      rw [amt, amt, lookupD_setVal_self, lookupD, if_pos rfl]
    · rw [amt_commitBouquet rest _ hnd.2 s]
      rw [amt, amt, lookupD_setVal_ne _ _ _ hsp, lookupD,
        if_neg (fun hh => hsp hh.symm)]
      rfl

theorem keys_nodup_commitBouquet : ∀ (b f : Flowers),
    (keys f).Nodup → (keys (commitBouquet b f)).Nodup
  | [], _, h => h
  | p :: rest, f, h =>
    keys_nodup_commitBouquet rest _ (keys_nodup_setVal _ _ h)

theorem nonneg_of_amt {g : Flowers} (hnd : (keys g).Nodup)
    (h : ∀ s, 0 ≤ amt g s) : NonnegVals g := by
  intro p hp
  obtain ⟨s, v⟩ := p
  have := lookupD_eq_of_mem 0 hnd hp
  have := h s
  rw [amt] at this
  omega

theorem commit_preserves_nonneg {f b : Flowers} (hfnd : (keys f).Nodup)
    (hbnd : (keys b).Nodup) (hbound : ∀ s, lookupD 0 b s ≤ amt f s) :
    (∀ s, 0 ≤ amt (commitBouquet b f) s) ∧
    NonnegVals (commitBouquet b f) ∧ (keys (commitBouquet b f)).Nodup := by
  have hamt : ∀ s, 0 ≤ amt (commitBouquet b f) s := by
    intro s
    rw [amt_commitBouquet b f hbnd s]
    have := hbound s
    omega
  have hnd2 := keys_nodup_commitBouquet b f hfnd
  exact ⟨hamt, nonneg_of_amt hnd2 hamt, hnd2⟩

/-- A bouquet committed from a valid ledger keeps all counts non-negative. -/
theorem commit_selected_nonneg (ds : List Design)
    (hreq : ∀ d ∈ ds, (keys d.required).Nodup) {f : Flowers}
    (hfnd : (keys f).Nodup) (hfnn : NonnegVals f)
    {b : Flowers} {nm : String} {c : ℚ}
    (h : selectLoop f ds none bigCost = .ok (some (b, nm), c)) :
    (∀ s, 0 ≤ amt (commitBouquet b f) s) ∧
    NonnegVals (commitBouquet b f) ∧ (keys (commitBouquet b f)).Nodup := by
  obtain ⟨d, hd, h1, _, h3⟩ := selected_from_fill f ds h
  rcases fill_ok_bounded hfnd hfnn (hreq d hd) h1 with ⟨_, hbig⟩ | ⟨hb1, _, hb3⟩
  · rw [hbig] at h3
    exact absurd h3 (lt_irrefl _)
  · exact commit_preserves_nonneg hfnd hb1 hb3

theorem computeLoop_preserves_nonneg (ds : List Design)
    (hreq : ∀ d ∈ ds, (keys d.required).Nodup) :
    ∀ (fuel : Nat) (f : Flowers) (num : Int)
      (bs : List (Flowers × String)) (ff : Flowers) (nn : Int),
      (keys f).Nodup → NonnegVals f →
      computeLoop ds fuel f num = some (.ok (bs, ff, nn)) →
      NonnegVals ff
  | 0, f, num, bs, ff, nn, hfnd, hfnn, h => by
    rw [computeLoop] at h
    split at h
    · exact absurd h (by simp)
    · simp only [Option.some.injEq, Except.ok.injEq, Prod.mk.injEq] at h
      exact h.2.1 ▸ hfnn
  | fuel + 1, f, num, bs, ff, nn, hfnd, hfnn, h => by
    rw [computeLoop] at h
    split at h
    · cases hsel : selectLoop f ds none bigCost with
      | error e =>
        rw [hsel] at h
        exact absurd h (by simp)
      | ok pr =>
        obtain ⟨best, c⟩ := pr
        rw [hsel] at h
        cases best with
        | none =>
          simp only [Option.some.injEq, Except.ok.injEq, Prod.mk.injEq] at h
          exact h.2.1 ▸ hfnn
        | some bn =>
          obtain ⟨b, nm⟩ := bn
          replace h : consResult (b, nm)
              (computeLoop ds fuel (commitBouquet b f) (num - valSum b)) =
              some (.ok (bs, ff, nn)) := h
          obtain ⟨hc1, hc2, hc3⟩ := commit_selected_nonneg ds hreq hfnd hfnn hsel
          cases hrec : computeLoop ds fuel (commitBouquet b f) (num - valSum b) with
          | none =>
            rw [hrec] at h
            exact absurd h (by simp [consResult])
          | some r =>
            rw [hrec] at h
            cases r with
            | error e =>
              exact absurd h (by simp [consResult])
            | ok tr =>
              obtain ⟨bs2, ff2, nn2⟩ := tr
              simp only [consResult, Option.some.injEq, Except.ok.injEq,
                Prod.mk.injEq] at h
              have := computeLoop_preserves_nonneg ds hreq fuel
                (commitBouquet b f) (num - valSum b) bs2 ff2 nn2 hc3 hc2 hrec
              exact h.2.1 ▸ this
    · simp only [Option.some.injEq, Except.ok.injEq, Prod.mk.injEq] at h
      exact h.2.1 ▸ hfnn

end Bloomon

namespace Bloomon

/-- C8: committing bouquets never drives any species count of the real
ledger below zero.  For a dict-valid inventory (unique keys, non-negative
counts — what a `Counter` built from the flower lines always is) and
dict-valid designs: after the commit of any selected bouquet every species
count is still non-negative, and every ledger a full `compute_bouquets` run
can return is non-negative throughout. -/
theorem c8_ledger_never_negative (ds : List Design)
    (hreq : ∀ d ∈ ds, (keys d.required).Nodup) (f : Flowers)
    (hfnd : (keys f).Nodup) (hfnn : NonnegVals f) :
    (∀ (b : Flowers) (nm : String) (c : ℚ),
      selectLoop f ds none bigCost = .ok (some (b, nm), c) →
      (∀ s, 0 ≤ amt (commitBouquet b f) s) ∧ NonnegVals (commitBouquet b f)) ∧
    (∀ (fuel : Nat) (num : Int) (bs : List (Flowers × String)) (ff : Flowers) (nn : Int),
      computeLoop ds fuel f num = some (.ok (bs, ff, nn)) → NonnegVals ff) := by
  constructor
  · intro b nm c h
    obtain ⟨h1, h2, _⟩ := commit_selected_nonneg ds hreq hfnd hfnn h
    exact ⟨h1, h2⟩
  · intro fuel num bs ff nn h
    exact computeLoop_preserves_nonneg ds hreq fuel f num bs ff nn hfnd hfnn h

theorem consumeN_flowers_dec (s : Species) : ∀ (k : Nat) (st : FillState),
    (consumeN s k st).flowers = decN s k st.flowers
  | 0, _ => rfl
  | k + 1, st => by
    rw [consumeN, decN, consumeN_flowers_dec s k]
    rfl

theorem consumeN_cost_charges (s : Species) : ∀ (k : Nat) (st : FillState),
    (consumeN s k st).cost = st.cost + (chargeN s k st.flowers st.total).sum
  | 0, st => by simp [consumeN, chargeN]
  | k + 1, st => by
    rw [consumeN, chargeN, consumeN_cost_charges s k]
    simp only [consumeOne, List.sum_cons]
    ring

theorem requiredLoop_remaining : ∀ (req : List (Species × Nat)) (st st' : FillState),
    requiredLoop req st = some st' →
    st'.remaining = st.remaining - ((req.map Prod.snd).sum : Int)
  | [], st, st', h => by
    simp only [requiredLoop, Option.some.injEq] at h
    simp [← h]
  | (s, k) :: rest, st, st', h => by
    rw [requiredLoop] at h
    split at h
    · exact absurd h (by simp)
    · have := requiredLoop_remaining rest _ st' h
      rw [this, consumeN_remaining]
      simp only [List.map_cons, List.sum_cons]
      push_cast
      ring

theorem requiredLoop_charges : ∀ (req : List (Species × Nat)) (st st' : FillState),
    requiredLoop req st = some st' →
    ∃ l, specChargesReq req st.flowers st.total = some (l, st'.flowers, st'.total) ∧
      st'.cost = st.cost + l.sum
  | [], st, st', h => by
    simp only [requiredLoop, Option.some.injEq] at h
    exact ⟨[], by simp [specChargesReq, ← h], by simp [← h]⟩
  | (s, k) :: rest, st, st', h => by
    rw [requiredLoop] at h
    split at h
    · exact absurd h (by simp)
    · rename_i hguard
      obtain ⟨l2, hspec2, hcost2⟩ := requiredLoop_charges rest _ st' h
      have hfl : (consumeN s k { st with bouquet := setVal st.bouquet s 0 }).flowers
          = decN s k st.flowers := consumeN_flowers_dec s k _
      have htot : (consumeN s k { st with bouquet := setVal st.bouquet s 0 }).total
          = st.total - k := consumeN_total s k _
      have hcost : (consumeN s k { st with bouquet := setVal st.bouquet s 0 }).cost
          = st.cost + (chargeN s k st.flowers st.total).sum := consumeN_cost_charges s k _
      rw [hfl, htot] at hspec2
      refine ⟨chargeN s k st.flowers st.total ++ l2, ?_, ?_⟩
      · rw [specChargesReq, if_neg hguard, hspec2]
      · rw [hcost2, hcost, List.sum_append]
        ring

theorem fillerStep_flowers (s : Species) (st : FillState) :
    (fillerStep s st).flowers =
      (if amt (setVal st.flowers s (amt st.flowers s - 1)) s = 0
       then delKey (setVal st.flowers s (amt st.flowers s - 1)) s
       else setVal st.flowers s (amt st.flowers s - 1)) := by
  unfold fillerStep dropEmpty
  simp only [consumeOne, ensureKey_flowers]
  split <;> rfl

theorem fillerStep_total (s : Species) (st : FillState) :
    (fillerStep s st).total = st.total - 1 := by
  unfold fillerStep
  rw [dropEmpty_total]
  simp only [consumeOne, ensureKey_total]

theorem fillerStep_cost (s : Species) (st : FillState) :
    (fillerStep s st).cost = st.cost + (1 - (amt st.flowers s : ℚ) / (st.total : ℚ)) := by
  unfold fillerStep
  rw [dropEmpty_cost]
  simp only [consumeOne, ensureKey_cost, ensureKey_flowers, ensureKey_total]

theorem fillerLoop_charges : ∀ (n : Nat) (st : FillState) (b : Flowers) (c : ℚ),
    fillerLoop n st = .ok (b, c) → c ≠ bigCost →
    ∃ l, specChargesFiller n st.flowers st.total = some l ∧ c = st.cost + l.sum
  | 0, st, b, c, h, _ => by
    simp only [fillerLoop, Except.ok.injEq, Prod.mk.injEq] at h
    exact ⟨[], rfl, by simp [← h.2]⟩
  | n + 1, st, b, c, h, hc => by
    rw [fillerLoop] at h
    split at h
    · exact absurd h (by simp)
    · rename_i s hmc
      split at h
      · simp only [Except.ok.injEq, Prod.mk.injEq] at h
        exact absurd h.2.symm hc
      · rename_i hguard
        obtain ⟨l2, hspec2, hcost2⟩ := fillerLoop_charges n _ b c h hc
        rw [fillerStep_flowers, fillerStep_total] at hspec2
        refine ⟨(1 - (amt st.flowers s : ℚ) / (st.total : ℚ)) :: l2, ?_, ?_⟩
        · simp only [specChargesFiller, hmc, if_neg hguard, hspec2]
        · rw [hcost2, fillerStep_cost, List.sum_cons]
          ring

/-- C5: in a successful fill (non-sentinel cost), the returned cost is
exactly the sum of the per-unit scarcity charges
`1 - (current amount of s / current total)`, one charge per consumed unit
(required or filler), each evaluated on the snapshot state before its
decrement, as replayed by the spec-side `specCharges`. -/
theorem c5_cost_is_sum_of_unit_charges (d : Design) (f b : Flowers) (c : ℚ)
    (h : bouquet_from_design_with_most_common_flowers d f = .ok (b, c))
    (hc : c ≠ bigCost) :
    ∃ l, specCharges d f = some l ∧ c = l.sum := by
  unfold bouquet_from_design_with_most_common_flowers at h
  split at h
  · simp only [Except.ok.injEq, Prod.mk.injEq] at h
    exact absurd h.2.symm hc
  · rename_i st heq
    obtain ⟨l1, hspec1, hcost1⟩ := requiredLoop_charges d.required _ st heq
    have hrem := requiredLoop_remaining d.required _ st heq
    have hrem2 : st.remaining = (d.totalSlots : Int) - ((d.required.map Prod.snd).sum : Int) := by
      simpa using hrem
    have hcost2 : st.cost = l1.sum := by simpa using hcost1
    have hspec2 : specChargesReq d.required f (valSum f) = some (l1, st.flowers, st.total) := by
      simpa using hspec1
    unfold specCharges
    simp only [hspec2]
    split at h
    · rename_i hr0
      rw [if_pos (by rw [← hrem2]; exact hr0)]
      simp only [Except.ok.injEq, Prod.mk.injEq] at h
      exact ⟨l1, rfl, by rw [← h.2, hcost2]⟩
    · rename_i hr0
      rw [if_neg (by rw [← hrem2]; exact hr0)]
      obtain ⟨l2, hspecF, hcostF⟩ := fillerLoop_charges st.remaining.toNat st b c h hc
      rw [← hrem2, hspecF]
      exact ⟨l1 ++ l2, rfl, by rw [hcostF, hcost2, List.sum_append]⟩

/-- Witness for C8 on the scenario-B design and inventory. -/
theorem c8_ledger_never_negative_witness :
    (∀ (b : Flowers) (nm : String) (c : ℚ),
      selectLoop [("a", 5)] [{ required := [("a", 2), ("b", 0)], totalSlots := 2, name := "BL" }]
        none bigCost = .ok (some (b, nm), c) →
      (∀ s, 0 ≤ amt (commitBouquet b [("a", 5)]) s) ∧
      NonnegVals (commitBouquet b [("a", 5)])) ∧
    (∀ (fuel : Nat) (num : Int) (bs : List (Flowers × String)) (ff : Flowers) (nn : Int),
      computeLoop [{ required := [("a", 2), ("b", 0)], totalSlots := 2, name := "BL" }]
        fuel [("a", 5)] num = some (.ok (bs, ff, nn)) → NonnegVals ff) :=
  c8_ledger_never_negative
    [{ required := [("a", 2), ("b", 0)], totalSlots := 2, name := "BL" }]
    (by
      intro d hd
      rcases List.mem_cons.mp hd with rfl | hd2
      · decide
      · simp at hd2)
    [("a", 5)] (by decide)
    (by
      intro p hp
      rcases List.mem_cons.mp hp with rfl | hp2
      · decide
      · simp at hp2)

end Bloomon

namespace Bloomon

/-- C7: trial evaluation never touches the caller's ledger (each trial is a
pure function of the same snapshot in the embedding), and an iteration in
which no design is feasible (every trial returns the sentinel cost) commits
nothing and returns the real ledger exactly unchanged, whatever the fuel and
flower count. -/
theorem c7_infeasible_iteration_preserves_ledger (f : Flowers) (ds : List Design)
    (hinf : ∀ d ∈ ds, ∃ b, bouquet_from_design_with_most_common_flowers d f = .ok (b, bigCost)) :
    selectLoop f ds none bigCost = .ok (none, bigCost) ∧
    (∀ (fuel : Nat) (num : Int),
      computeLoop ds (fuel + 1) f num = some (.ok ([], f, num))) := by
  have hok : ∀ d ∈ ds, ∃ p, bouquet_from_design_with_most_common_flowers d f = .ok p :=
    fun d hd => (hinf d hd).elim (fun b hb => ⟨(b, bigCost), hb⟩)
  have hni : ∀ d ∈ ds, ¬ costOf (bouquet_from_design_with_most_common_flowers d f) < bigCost := by
    intro d hd
    obtain ⟨b, hb⟩ := hinf d hd
    rw [hb]
    exact lt_irrefl _
  have hsel := selectLoop_no_improvement f ds none bigCost hok hni
  refine ⟨hsel, ?_⟩
  intro fuel num
  rw [computeLoop]
  by_cases hnum : 0 < num
  · rw [if_pos hnum, hsel]
  · rw [if_neg hnum]

/-- C6 (amended): the allocator loop terminates for every inventory and every
design list whose designs are dict-valid and have at least one total slot (the
Design data model's positivity invariant): fuel `total + 1` never runs out,
and every committed bouquet strictly decreases the ledger total by at least
one unit (hence the total is non-increasing across iterations; an iteration
with no feasible design returns immediately).  Without the positivity
invariant the loop need not terminate. -/
theorem c6_loop_terminates (ds : List Design) (f : Flowers)
    (hval : ∀ d ∈ ds, (keys d.required).Nodup ∧ 1 ≤ d.totalSlots) :
    compute_bouquets ds f ((valSum f).toNat + 1) ≠ none ∧
    (∀ (b : Flowers) (nm : String) (c : ℚ),
      selectLoop f ds none bigCost = .ok (some (b, nm), c) →
      valSum (commitBouquet b f) + 1 ≤ valSum f) := by
  constructor
  · exact computeLoop_term ds hval _ f (by omega)
  · intro b nm c h
    have hb1 : 1 ≤ valSum b := selected_bouquet_pos f ds hval h
    rw [valSum_commitBouquet]
    omega

end Bloomon

namespace Bloomon

section ConcreteEvaluationTwo

attribute [local semireducible] Rat.mul Rat.inv Rat.add Rat.sub

set_option maxRecDepth 4000000

set_option synthInstance.maxSize 2000

/-- Witness for C7: a design requiring an absent species on a non-empty
ledger; the iteration leaves the ledger `{b: 3}` unchanged. -/
theorem c7_infeasible_iteration_preserves_ledger_witness :
    selectLoop [("b", 3)] [{ required := [("a", 1)], totalSlots := 1, name := "AL" }]
      none bigCost = .ok (none, bigCost) ∧
    (∀ (fuel : Nat) (num : Int),
      computeLoop [{ required := [("a", 1)], totalSlots := 1, name := "AL" }]
        (fuel + 1) [("b", 3)] num = some (.ok ([], [("b", 3)], num))) :=
  c7_infeasible_iteration_preserves_ledger [("b", 3)]
    [{ required := [("a", 1)], totalSlots := 1, name := "AL" }]
    (by
      intro d hd
      rcases List.mem_cons.mp hd with rfl | hd2
      · exact ⟨[], by decide⟩
      · simp at hd2)

/-- C6 counterexample: the parser accepts token `XL0a0`, a design with zero
total slots.  On inventory `{a: 1}` the iteration *commits* this design's
empty-consumption bouquet (trial cost 0 beats the sentinel) yet the ledger
total does not decrease — the commit leaves the ledger literally unchanged —
so the loop makes no progress, and even the fuel bound `total + 1 = 2` that
suffices for every slot-positive design list is exhausted with `num_flowers`
still positive: the loop runs forever. -/
theorem c6_counterexample :
    parse_bouquet_design "XL0a0" =
      some { required := [("a", 0)], totalSlots := 0, name := "XL" } ∧
    selectLoop [("a", 1)] [{ required := [("a", 0)], totalSlots := 0, name := "XL" }]
      none bigCost = .ok (some ([("a", 0)], "XL"), 0) ∧
    commitBouquet [("a", 0)] [("a", 1)] = [("a", 1)] ∧
    computeLoop [{ required := [("a", 0)], totalSlots := 0, name := "XL" }]
      2 [("a", 1)] 1 = none := by
  refine ⟨by decide, by decide, by decide, by decide⟩

/-- Witness for C6 (amended) on the scenario-B design and inventory. -/
theorem c6_loop_terminates_witness :
    compute_bouquets [{ required := [("a", 2), ("b", 0)], totalSlots := 2, name := "BL" }]
      [("a", 5)] ((valSum [("a", 5)]).toNat + 1) ≠ none ∧
    (∀ (b : Flowers) (nm : String) (c : ℚ),
      selectLoop [("a", 5)] [{ required := [("a", 2), ("b", 0)], totalSlots := 2, name := "BL" }]
        none bigCost = .ok (some (b, nm), c) →
      valSum (commitBouquet b [("a", 5)]) + 1 ≤ valSum [("a", 5)]) :=
  c6_loop_terminates [{ required := [("a", 2), ("b", 0)], totalSlots := 2, name := "BL" }]
    [("a", 5)]
    (by
      intro d hd
      rcases List.mem_cons.mp hd with rfl | hd2
      · exact ⟨by decide, by decide⟩
      · simp at hd2)

/-- Witness for C5: design `AL2a3` on snapshot `{a:2, b:1}` succeeds with
cost 5/6, the sum of its three per-unit charges 1/3, 1/2 and 0. -/
theorem c5_cost_is_sum_of_unit_charges_witness :
    ∃ l, specCharges { required := [("a", 2)], totalSlots := 3, name := "AL" }
      [("a", 2), ("b", 1)] = some l ∧ (5 / 6 : ℚ) = l.sum :=
  c5_cost_is_sum_of_unit_charges
    { required := [("a", 2)], totalSlots := 3, name := "AL" }
    [("a", 2), ("b", 1)] [("a", 2), ("b", 1)] (5 / 6) (by decide) (by decide)

end ConcreteEvaluationTwo

/-! ### Parser lemmas (C9) -/

theorem lookupD_foldl_setVal_not_mem :
    ∀ (pairs : List (Species × Nat)) (acc : AList Nat) (s : Species),
      ¬ s ∈ pairs.map Prod.fst →
      lookupD 0 (pairs.foldl (fun req p => setVal req p.1 p.2) acc) s = lookupD 0 acc s
  | [], _, _, _ => rfl
  | q :: rest, acc, s, h => by
    rw [List.map_cons] at h
    rw [List.foldl_cons,
      lookupD_foldl_setVal_not_mem rest _ s (fun hm => h (List.mem_cons_of_mem _ hm))]
    exact lookupD_setVal_ne _ _ _ (fun hh => h (by rw [hh]; exact List.mem_cons_self _ _))

theorem lookupD_foldl_setVal :
    ∀ (pairs : List (Species × Nat)) (acc : AList Nat) {s : Species} {v : Nat},
      (pairs.map Prod.fst).Nodup → (s, v) ∈ pairs →
      lookupD 0 (pairs.foldl (fun req p => setVal req p.1 p.2) acc) s = v
  | [], _, _, _, _, hm => by simp at hm
  | q :: rest, acc, s, v, hnd, hm => by
    rw [List.map_cons, List.nodup_cons] at hnd
    rcases List.mem_cons.mp hm with hm1 | hm1
    · rw [List.foldl_cons]
      have hs : ¬ s ∈ rest.map Prod.fst := by
        rw [← hm1] at hnd
        exact hnd.1
      rw [lookupD_foldl_setVal_not_mem rest _ s hs, ← hm1, lookupD_setVal_self]
    · rw [List.foldl_cons]
      exact lookupD_foldl_setVal rest _ hnd.2 hm1

theorem map_getLastD {α β : Type} (f : α → β) :
    ∀ (l : List α) (hne : l ≠ []) (d1 : β) (d2 : α),
      (l.map f).getLastD d1 = f (l.getLastD d2)
  | [], hne, _, _ => absurd rfl hne
  | [x], _, _, _ => rfl
  | x :: y :: rest, _, d1, d2 => by
    rw [List.map_cons, List.getLastD_cons, List.getLastD_cons]
    exact map_getLastD f (y :: rest) (by simp) d1 y

end Bloomon

namespace Bloomon

/-- C9 (amended): for every token whose lowercase-letter runs and digit runs
are well-matched (one more digit run than letter runs) and whose letter runs
are pairwise distinct, the parser returns a design whose required mapping
pairs the i-th letter run with the i-th digit run as an integer, whose
`totalSlots` is the last digit run, and whose name is the first two
characters of the token.  (With a repeated letter run, the dict keeps only
the last occurrence's count, which refutes the unqualified claim.) -/
theorem c9_parse_design (tok : String)
    (hmatch : (speciesRuns tok).length + 1 = (digitRuns tok).length)
    (hnd : ((speciesRuns tok).map (fun r => String.mk r)).Nodup) :
    ∃ d, parse_bouquet_design tok = some d ∧
      d.name = tok.take 2 ∧
      d.totalSlots = natOfRun ((digitRuns tok).getLastD []) ∧
      ∀ (i : Nat) (hi : i < (speciesRuns tok).length),
        lookupD 0 d.required (String.mk ((speciesRuns tok).get ⟨i, hi⟩)) =
          natOfRun ((digitRuns tok).get ⟨i, by omega⟩) := by
  have hlen : ((speciesRuns tok).map (fun r => String.mk r)).length ≤
      ((digitRuns tok).map natOfRun).length := by
    simp only [List.length_map]
    omega
  have hne : (digitRuns tok).map natOfRun ≠ [] := by
    have : 0 < ((digitRuns tok).map natOfRun).length := by
      simp only [List.length_map]
      omega
    intro hc
    rw [hc] at this
    simp at this
  refine ⟨(⟨buildRequired (((speciesRuns tok).map (fun r => String.mk r)).zip
      ((digitRuns tok).map natOfRun)),
      ((digitRuns tok).map natOfRun).getLastD 0, tok.take 2⟩ : Design), ?_, rfl, ?_, ?_⟩
  · rw [parse_bouquet_design, if_pos ⟨hlen, hne⟩]
  · exact map_getLastD natOfRun (digitRuns tok) (by
      intro hc
      rw [hc] at hmatch
      simp at hmatch) 0 []
  · intro i hi
    show lookupD 0 (buildRequired _) _ = _
    unfold buildRequired
    have hkeys : ((((speciesRuns tok).map (fun r => String.mk r)).zip
        ((digitRuns tok).map natOfRun)).map Prod.fst).Nodup := by
      rw [List.map_fst_zip _ _ hlen]
      exact hnd
    have hmem : (String.mk ((speciesRuns tok).get ⟨i, hi⟩),
        natOfRun ((digitRuns tok).get ⟨i, by omega⟩)) ∈
        (((speciesRuns tok).map (fun r => String.mk r)).zip
          ((digitRuns tok).map natOfRun)) := by
      have hi2 : i < ((((speciesRuns tok).map (fun r => String.mk r)).zip
          ((digitRuns tok).map natOfRun))).length := by
        rw [List.length_zip]
        simp only [List.length_map]
        omega
      rw [List.mem_iff_get]
      refine ⟨⟨i, hi2⟩, ?_⟩
      rw [@List.get_zip _ _ ((speciesRuns tok).map (fun r => String.mk r))
        ((digitRuns tok).map natOfRun) ⟨i, hi2⟩]
      simp [List.get_eq_getElem, List.getElem_map]
    exact lookupD_foldl_setVal _ [] hkeys hmem

/-- C10: the encoder renders the design name followed by `count` then
`species` for the composition entries sorted by ascending species (Python
tuple order on the items): encoding does not depend on the insertion order
of the composition (any permutation of the entries encodes identically), the
rendered entry list is sorted with species in ascending lexical order, and
encoding the same bouquet twice yields identical tokens. -/
theorem c10_encode_sorted_canonical (b b2 : Flowers) (nm : String)
    (hperm : b.Perm b2) :
    encodeOne (b, nm) = encodeOne (b2, nm) ∧
    List.Sorted pairLe (List.insertionSort pairLe b) ∧
    ((List.insertionSort pairLe b).map Prod.fst).Sorted
      (fun x y : Species => x.data < y.data ∨ x = y) ∧
    encode_bouquets [(b, nm), (b, nm)] = [encodeOne (b, nm), encodeOne (b, nm)] := by
  have hsorted1 := List.sorted_insertionSort pairLe b
  have hsorted2 := List.sorted_insertionSort pairLe b2
  have hsame : List.insertionSort pairLe b = List.insertionSort pairLe b2 := by
    apply List.eq_of_perm_of_sorted _ hsorted1 hsorted2
    exact ((List.perm_insertionSort pairLe b).trans hperm).trans
      (List.perm_insertionSort pairLe b2).symm
  refine ⟨?_, hsorted1, ?_, rfl⟩
  · unfold encodeOne
    rw [hsame]
  · exact List.Pairwise.map Prod.fst
      (fun p q hpq => by
        rcases hpq with h1 | ⟨h1, _⟩
        · exact Or.inl h1
        · exact Or.inr h1)
      hsorted1

end Bloomon

namespace Bloomon

section ConcreteEvaluationThree

set_option maxRecDepth 100000

/-- C9 counterexample: token `AL1a2a3` is well-matched (two letter runs,
three digit runs) but repeats the species run `a`; the parsed mapping pairs
`a` with 2 (the last occurrence), not with the 0-th digit run 1 as the claim
requires. -/
theorem c9_counterexample :
    (speciesRuns "AL1a2a3").length + 1 = (digitRuns "AL1a2a3").length ∧
    parse_bouquet_design "AL1a2a3" =
      some { required := [("a", 2)], totalSlots := 3, name := "AL" } ∧
    String.mk ((speciesRuns "AL1a2a3").getD 0 []) = "a" ∧
    lookupD 0 [("a", 2)] "a" ≠ natOfRun ((digitRuns "AL1a2a3").getD 0 []) := by
  refine ⟨by decide, by decide, by decide, by decide⟩

/-- Witness for C9 (amended) on the spec's leading example token. -/
theorem c9_parse_design_witness :
    ∃ d, parse_bouquet_design "AL10a15b25" = some d ∧
      d.name = "AL10a15b25".take 2 ∧
      d.totalSlots = natOfRun ((digitRuns "AL10a15b25").getLastD []) ∧
      ∀ (i : Nat) (hi : i < (speciesRuns "AL10a15b25").length),
        lookupD 0 d.required (String.mk ((speciesRuns "AL10a15b25").get ⟨i, hi⟩)) =
          natOfRun ((digitRuns "AL10a15b25").get ⟨i, by
            have h1 : (speciesRuns "AL10a15b25").length = 2 := by decide
            have h2 : (digitRuns "AL10a15b25").length = 3 := by decide
            omega⟩) :=
  c9_parse_design "AL10a15b25" (by decide) (by decide)

/-- Witness for C10 on two insertion orders of the same composition. -/
theorem c10_encode_sorted_canonical_witness :
    encodeOne ([("b", 3), ("a", 2)], "AL") = encodeOne ([("a", 2), ("b", 3)], "AL") ∧
    List.Sorted pairLe (List.insertionSort pairLe [("b", 3), ("a", 2)]) ∧
    ((List.insertionSort pairLe [("b", 3), ("a", 2)]).map Prod.fst).Sorted
      (fun x y : Species => x.data < y.data ∨ x = y) ∧
    encode_bouquets [([("b", 3), ("a", 2)], "AL"), ([("b", 3), ("a", 2)], "AL")] =
      [encodeOne ([("b", 3), ("a", 2)], "AL"), encodeOne ([("b", 3), ("a", 2)], "AL")] :=
  c10_encode_sorted_canonical [("b", 3), ("a", 2)] [("a", 2), ("b", 3)] "AL" (by decide)

end ConcreteEvaluationThree

end Bloomon
